import Mathlib

/-!
Verification of the RTN weight-only quantization engine
(`neural_compressor/torch/algorithms/rtn.py`).

Shallow embedding conventions:
* real (floating-point) values are modelled as rationals `ℚ`;
* integer tensors are modelled as `List (List ℤ)` (row major);
* a weight matrix is a `List (List ℚ)`, one inner list per output row;
* `torch.round` (round half to even) is modelled by `rnd`;
* the bit-packed `int32` storage words of `WeightOnlyLinear` are modelled
  as natural numbers that denote the 32-bit two's-complement pattern.
-/

namespace RTN

/-- Code table for the NF4 data type (source lines 31-48). -/
def NF4 : List ℚ :=
  [-1.0, -0.6961928009986877, -0.5250730514526367, -0.39491748809814453,
   -0.28444138169288635, -0.18477343022823334, -0.09105003625154495, 0.0,
   0.07958029955625534, 0.16093020141124725, 0.24611230194568634,
   0.33791524171829224, 0.44070982933044434, 0.5626170039176941,
   0.7229568362236023, 1.0]

/-- Code table for the FP4 (bitsandbytes variant) data type (source line 49). -/
def FP4_BNB : List ℚ :=
  [-12.0, -8.0, -6.0, -4.0, -3.0, -2.0, -0.0625, 0, 0.0625, 2.0, 3.0, 4.0,
   6.0, 8.0, 12.0]

/-- Code table for the FP4 (E2M1 variant) data type (source line 50). -/
def FP4_E2M1 : List ℚ :=
  [-6.0, -4.0, -3.0, -2.0, -1.5, -1.0, -0.0625, 0, 0.0625, 1.0, 1.5, 2.0,
   3.0, 4.0, 6.0]

/-- Signed integer codes paired with `NF4`, same order (source line 55). -/
def NF4_BIT : List ℤ := [7, 1, 2, 3, 4, 5, 6, 0, -8, -7, -6, -5, -4, -3, -2, -1]

/-- Signed integer codes paired with `FP4_BNB`, same order (source line 56). -/
def FP4_BNB_BIT : List ℤ := [-5, -6, -3, -4, -1, -2, -7, 0, 1, 6, 7, 4, 5, 2, 3]

/-- Signed integer codes paired with `FP4_E2M1`, same order (source line 57). -/
def FP4_E2M1_BIT : List ℤ := [-1, -2, -3, -4, -5, -6, -7, 0, 1, 2, 3, 4, 5, 6, 7]

/-- The data-type tag (the Python code uses strings; the dispatch in
`qdq_weight_actor` only tests whether the tag contains "int", and the
lookup tables have exactly the four non-int keys below). -/
inductive DType where
  | int
  | nf4
  | fp4
  | fp4_e2m1_bnb
  | fp4_e2m1
deriving DecidableEq

/-- FLOAT_MAPPING (source line 59); `none` models absence of the key. -/
def FLOAT_MAPPING : DType → Option (List ℚ)
  | .int => none
  | .nf4 => some NF4
  | .fp4 => some FP4_BNB
  | .fp4_e2m1_bnb => some FP4_BNB
  | .fp4_e2m1 => some FP4_E2M1

/-- INT_MAPPING (source line 60). -/
def INT_MAPPING : DType → Option (List ℤ)
  | .int => none
  | .nf4 => some NF4_BIT
  | .fp4 => some FP4_BNB_BIT
  | .fp4_e2m1_bnb => some FP4_BNB_BIT
  | .fp4_e2m1 => some FP4_E2M1_BIT

/-! Numeric helpers shared by the codecs. -/

/-- Model of `torch.round`: round half to even. -/
def rnd (q : ℚ) : ℤ :=
  if q - ⌊q⌋ < 1/2 then ⌊q⌋
  else if 1/2 < q - ⌊q⌋ then ⌊q⌋ + 1
  else if 2 ∣ ⌊q⌋ then ⌊q⌋ else ⌊q⌋ + 1

/-- Model of `torch.clamp x lo hi` (applied here to integral values). -/
def clampZ (x lo hi : ℤ) : ℤ := min (max x lo) hi

/-- Row maximum, `torch.max(w, 1)[0]` for one row (rows are nonempty in
every theorem below; the `[]` case is an arbitrary default). -/
def rowMax : List ℚ → ℚ
  | [] => 0
  | x :: xs => xs.foldl max x

/-- Row minimum, `torch.min(w, 1)[0]` for one row. -/
def rowMin : List ℚ → ℚ
  | [] => 0
  | x :: xs => xs.foldl min x

/-! Non-uniform 4-bit codec, `quantize_4bit` (source lines 63-94). -/

/-- Per-row scale of `quantize_4bit` (source line 79):
`tensor.abs().max(1)[0] * quantile / max(allow_data)`. -/
def q4Scale (row : List ℚ) (quantile : ℚ) (allowData : List ℚ) : ℚ :=
  rowMax (row.map abs) * quantile / rowMax allowData

/-- Midpoints of consecutive code-table entries (source line 82). -/
def midData (allowData : List ℚ) : List ℚ :=
  (List.range (allowData.length - 1)).map
    (fun i => (allowData.getD i 0 + allowData.getD (i + 1) 0) / 2)

/-- Bucket condition of iteration `i` of the `quantize_4bit` loop
(source lines 86-91), for a normalized value `t` and `n = len(allow_data)`. -/
def q4Cond (mid : List ℚ) (n i : ℕ) (t : ℚ) : Prop :=
  if i = 0 then t ≤ mid.getD 0 0
  else if i = n - 1 then mid.getD (i - 1) 0 < t
  else mid.getD (i - 1) 0 < t ∧ t ≤ mid.getD i 0

instance (mid : List ℚ) (n i : ℕ) (t : ℚ) : Decidable (q4Cond mid n i t) := by
  unfold q4Cond; infer_instance

/-- The accumulated `q_tensor` value for one normalized element `t`
(source lines 83-91): the loop adds `data[i]` exactly when bucket `i`
accepts `t`, starting from `0`.  `data` is `allow_data` for float output
and the (cast) `allow_data_bit` for integer output. -/
def q4Pick (allowData data : List ℚ) (t : ℚ) : ℚ :=
  (List.range allowData.length).foldl
    (fun acc i => acc + (if q4Cond (midData allowData) allowData.length i t then data.getD i 0 else 0)) 0

/-- quantize_4bit, float path (source lines 63-94 with `return_int=False`):
scale per row, normalize, bucket to the nearest code, rescale. -/
def quantize_4bit (w : List (List ℚ)) (quantile : ℚ) (dt : DType) : List (List ℚ) :=
  let allowData := (FLOAT_MAPPING dt).getD []
  w.map (fun row =>
    let scale := q4Scale row quantile allowData
    row.map (fun x => q4Pick allowData allowData (x / scale) * scale))

/-- Integer-output variant of `q4Pick` (the loop adds the integer code
`allow_data_bit[i]` instead of the float `allow_data[i]`; the running
`q_tensor` only ever holds integral values, so it is modelled in `ℤ` and
the final `.type(torch.int8)` cast is exact). -/
def q4PickZ (allowData : List ℚ) (dataZ : List ℤ) (t : ℚ) : ℤ :=
  (List.range allowData.length).foldl
    (fun acc i => acc + (if q4Cond (midData allowData) allowData.length i t then dataZ.getD i 0 else 0)) 0

/-- quantize_4bit, integer path (source lines 92-93, `return_int=True`):
returns the integer codes and the per-row scales (`zp` is `None`). -/
def quantize_4bit_int (w : List (List ℚ)) (quantile : ℚ) (dt : DType) :
    List (List ℤ) × List ℚ :=
  let allowData := (FLOAT_MAPPING dt).getD []
  let allowBit := (INT_MAPPING dt).getD []
  (w.map (fun row =>
      let scale := q4Scale row quantile allowData
      row.map (fun x => q4PickZ allowData allowBit (x / scale))),
   w.map (fun row => q4Scale row quantile allowData))

/-! Uniform asymmetric codec, `qdq_weight_asym` (source lines 97-126). -/

/-- Per-row quantization parameters of `qdq_weight_asym`
(source lines 110-122): returns `(scale, zp)`. -/
def asymParams (row : List ℚ) (numBits : ℕ) (quantile : ℚ) : ℚ × ℤ :=
  let maxq : ℚ := 2 ^ numBits - 1
  let wmin0 := min (rowMin row) 0
  let wmax0 := max (rowMax row) 0
  let wmin1 := wmin0 * quantile
  let wmax1 := wmax0 * quantile
  let wmin := if wmin1 = 0 ∧ wmax1 = 0 then -1 else wmin1
  let wmax := if wmin1 = 0 ∧ wmax1 = 0 then 1 else wmax1
  let scale := (wmax - wmin) / maxq
  (scale, rnd (-wmin / scale))

/-- Quantized row of `qdq_weight_asym` (source line 123). -/
def asymQRow (row : List ℚ) (numBits : ℕ) (quantile : ℚ) : List ℤ :=
  let (scale, zp) := asymParams row numBits quantile
  row.map (fun x => clampZ (rnd (x / scale) + zp) 0 (2 ^ numBits - 1))

/-- qdq_weight_asym, integer path (source line 125): `(q, scale, zp)` per row. -/
def qdq_weight_asym_int (w : List (List ℚ)) (numBits : ℕ) (quantile : ℚ) :
    List (List ℤ) × List ℚ × List ℤ :=
  (w.map (fun row => asymQRow row numBits quantile),
   w.map (fun row => (asymParams row numBits quantile).1),
   w.map (fun row => (asymParams row numBits quantile).2))

/-- qdq_weight_asym, float path (source line 126): `scale * (q - zp)`. -/
def qdq_weight_asym (w : List (List ℚ)) (numBits : ℕ) (quantile : ℚ) :
    List (List ℚ) :=
  w.map (fun row =>
    let (scale, zp) := asymParams row numBits quantile
    (asymQRow row numBits quantile).map (fun (q : ℤ) => scale * ((q : ℚ) - (zp : ℚ))))

/-! Uniform symmetric codec, `qdq_weight_sym` (source lines 129-171). -/

/-- Integer bounds `(minq, maxq)` of `qdq_weight_sym`
(source lines 148-152, including the `num_bits == 1` special case). -/
def symBounds (numBits : ℕ) : ℤ × ℤ :=
  if numBits = 1 then (2 ^ (numBits - 1) - 1, 2 ^ (numBits - 1))
  else (-(2 ^ (numBits - 1)), 2 ^ (numBits - 1) - 1)

/-- Per-row scale of `qdq_weight_sym` (source lines 153-167), including the
`full_range` sign flip `scale -= 2 * (scale * flip_flag)` where
`flip_flag = |max_val| > |min_val|`. -/
def symScale (row : List ℚ) (numBits : ℕ) (quantile : ℚ) (fullRange : Bool) : ℚ :=
  let minq := (symBounds numBits).1
  let maxq := (symBounds numBits).2
  let maxVal := rowMax row
  let minVal := rowMin row
  let flipFlag := |maxVal| > |minVal|
  let wmax0 := max |maxVal| |minVal| * quantile
  let wmax : ℚ := if wmax0 = 0 then 1 else wmax0
  if fullRange then
    let scale := wmax / (-(minq : ℚ))
    scale - 2 * (scale * (if flipFlag then 1 else 0))
  else
    wmax / (maxq : ℚ)

/-- Quantized row of `qdq_weight_sym` (source line 168). -/
def symQRow (row : List ℚ) (numBits : ℕ) (quantile : ℚ) (fullRange : Bool) : List ℤ :=
  let minq := (symBounds numBits).1
  let maxq := (symBounds numBits).2
  let scale := symScale row numBits quantile fullRange
  row.map (fun x => clampZ (rnd (x / scale)) minq maxq)

/-- qdq_weight_sym, integer path (source line 170): `(q, scale)` per row
(`zp` is `None`). -/
def qdq_weight_sym_int (w : List (List ℚ)) (numBits : ℕ) (quantile : ℚ)
    (fullRange : Bool) : List (List ℤ) × List ℚ :=
  (w.map (fun row => symQRow row numBits quantile fullRange),
   w.map (fun row => symScale row numBits quantile fullRange))

/-- qdq_weight_sym, float path (source line 171): `scale * q`. -/
def qdq_weight_sym (w : List (List ℚ)) (numBits : ℕ) (quantile : ℚ)
    (fullRange : Bool) : List (List ℚ) :=
  w.map (fun row =>
    let scale := symScale row numBits quantile fullRange
    (symQRow row numBits quantile fullRange).map (fun (q : ℤ) => scale * (q : ℚ)))

/-! Chunking helper: `l.reshape(-1, n)` on row-major data, and the
column-slicing `[:, start:end]` used by the packer, both cut a flat list
into consecutive pieces of size `n` (the last piece possibly shorter).
Defined with a structural fuel argument so that it unfolds by rewriting. -/

def chunksGo {α : Type} (n : ℕ) : ℕ → List α → List (List α)
  | 0, _ => []
  | _, [] => []
  | fuel + 1, x :: xs => (x :: xs).take n :: chunksGo n fuel ((x :: xs).drop n)

/-- Cut `l` into consecutive chunks of size `n` (callers always use `n ≥ 1`;
the last chunk may be shorter when `n` does not divide the length). -/
def chunkBy {α : Type} (n : ℕ) (l : List α) : List (List α) :=
  chunksGo n l.length l

/-- Reshape a flat row-major list to rows of width `c` (`reshape(r, c)` and
`reshape(r, -1)` with `c = length / r`). -/
def reshapeW {α : Type} (c : ℕ) (l : List α) : List (List α) := chunkBy c l

/-- The quantization scheme tag (`qdq_weight_actor` dispatches on the string
being `"sym"`; anything else takes the asymmetric branch). -/
inductive Scheme where
  | sym
  | asym
deriving DecidableEq

/-- qdq_weight_actor, float path (source lines 174-195, minus the
`num_bits > 0` assertion, which is modelled by `qdq_weight_actorE`):
non-int tags with 4 bits go to `quantize_4bit`, otherwise sym/asym. -/
def qdq_weight_actor (w : List (List ℚ)) (numBits : ℤ) (scheme : Scheme)
    (quantile : ℚ) (dt : DType) (fullRange : Bool) : List (List ℚ) :=
  if dt ≠ DType.int ∧ numBits = 4 then quantize_4bit w quantile dt
  else if scheme = Scheme.sym then qdq_weight_sym w numBits.toNat quantile fullRange
  else qdq_weight_asym w numBits.toNat quantile

/-- qdq_weight_actor with its precondition (source line 189:
`assert num_bits > 0, "num_bits should be larger than 0"`). -/
def qdq_weight_actorE (w : List (List ℚ)) (numBits : ℤ) (scheme : Scheme)
    (quantile : ℚ) (dt : DType) (fullRange : Bool) :
    Except String (List (List ℚ)) :=
  if numBits ≤ 0 then .error "num_bits should be larger than 0"
  else .ok (qdq_weight_actor w numBits scheme quantile dt fullRange)

/-- qdq_weight_actor, integer path: `(q, scale, zp?)`; `zp` is present only
for the asymmetric uniform codec. -/
def qdq_weight_actor_int (w : List (List ℚ)) (numBits : ℤ) (scheme : Scheme)
    (quantile : ℚ) (dt : DType) (fullRange : Bool) :
    List (List ℤ) × List ℚ × Option (List ℤ) :=
  if dt ≠ DType.int ∧ numBits = 4 then
    ((quantize_4bit_int w quantile dt).1, (quantize_4bit_int w quantile dt).2, none)
  else if scheme = Scheme.sym then
    ((qdq_weight_sym_int w numBits.toNat quantile fullRange).1,
     (qdq_weight_sym_int w numBits.toNat quantile fullRange).2, none)
  else
    ((qdq_weight_asym_int w numBits.toNat quantile).1,
     (qdq_weight_asym_int w numBits.toNat quantile).2.1,
     some (qdq_weight_asym_int w numBits.toNat quantile).2.2)

/-- Number of columns of a (rectangular) matrix, `weight.shape[1]`. -/
def cols {α : Type} (w : List (List α)) : ℕ := (w.getD 0 []).length

/-- quant_weight, float path (source lines 198-297 with
`return_int=False`); `num_bits <= 0` returns the weight unchanged
(source lines 217-218). -/
def quant_weight (w : List (List ℚ)) (numBits groupSize : ℤ) (scheme : Scheme)
    (quantile : ℚ) (dt : DType) (fullRange : Bool) : List (List ℚ) :=
  if numBits ≤ 0 then w
  else if groupSize = -1 ∨ (cols w : ℤ) < groupSize then
    qdq_weight_actor w numBits scheme quantile dt fullRange
  else
    let gs := groupSize.toNat
    if (cols w) % gs = 0 then
      reshapeW (cols w)
        ((qdq_weight_actor (chunkBy gs w.flatten) numBits scheme quantile dt fullRange).flatten)
    else
      let si := (cols w) / gs * gs
      let weight1 := qdq_weight_actor (chunkBy gs ((w.map (fun r => r.take si)).flatten))
        numBits scheme quantile dt fullRange
      let weight1r := reshapeW si weight1.flatten
      let weight2 := qdq_weight_actor (w.map (fun r => r.drop si))
        numBits scheme quantile dt fullRange
      (weight1r.zip weight2).map (fun p => p.1 ++ p.2)

/-- quant_weight with the downstream assertion surfaced (the only failure
the entry point can propagate is the `num_bits > 0` assertion of
`qdq_weight_actor`, and the `num_bits <= 0` early return shields it). -/
def quant_weightE (w : List (List ℚ)) (numBits groupSize : ℤ) (scheme : Scheme)
    (quantile : ℚ) (dt : DType) (fullRange : Bool) :
    Except String (List (List ℚ)) :=
  if numBits ≤ 0 then .ok w
  else if groupSize = -1 ∨ (cols w : ℤ) < groupSize then
    qdq_weight_actorE w numBits scheme quantile dt fullRange
  else
    let gs := groupSize.toNat
    if (cols w) % gs = 0 then
      (qdq_weight_actorE (chunkBy gs w.flatten) numBits scheme quantile dt fullRange).map
        (fun q => reshapeW (cols w) q.flatten)
    else
      let si := (cols w) / gs * gs
      (qdq_weight_actorE (chunkBy gs ((w.map (fun r => r.take si)).flatten))
          numBits scheme quantile dt fullRange).bind
        (fun weight1 =>
          (qdq_weight_actorE (w.map (fun r => r.drop si))
              numBits scheme quantile dt fullRange).map
            (fun weight2 => ((reshapeW si weight1.flatten).zip weight2).map
              (fun p => p.1 ++ p.2)))

/-- quant_weight, integer path (source lines 229-297 with
`return_int=True`): `(q, scale, zp?)`, scale shaped
`(rows, number of groups)`. -/
def quant_weight_int (w : List (List ℚ)) (numBits groupSize : ℤ)
    (scheme : Scheme) (quantile : ℚ) (dt : DType) (fullRange : Bool) :
    List (List ℤ) × List (List ℚ) × Option (List (List ℤ)) :=
  if groupSize = -1 ∨ (cols w : ℤ) < groupSize then
    let t := qdq_weight_actor_int w numBits scheme quantile dt fullRange
    (t.1, t.2.1.map (fun x => [x]), t.2.2.map (fun l => l.map (fun x => [x])))
  else
    let gs := groupSize.toNat
    if (cols w) % gs = 0 then
      let t := qdq_weight_actor_int (chunkBy gs w.flatten) numBits scheme
        quantile dt fullRange
      (reshapeW (cols w) t.1.flatten, reshapeW (t.2.1.length / w.length) t.2.1,
       t.2.2.map (fun l => reshapeW (l.length / w.length) l))
    else
      let si := (cols w) / gs * gs
      let t1 := qdq_weight_actor_int
        (chunkBy gs ((w.map (fun r => r.take si)).flatten)) numBits scheme quantile dt fullRange
      let t2 := qdq_weight_actor_int (w.map (fun r => r.drop si))
        numBits scheme quantile dt fullRange
      (((reshapeW si t1.1.flatten).zip t2.1).map (fun p => p.1 ++ p.2),
       ((reshapeW (t1.2.1.length / w.length) t1.2.1).zip (t2.2.1.map (fun x => [x]))).map
         (fun p => p.1 ++ p.2),
       match t1.2.2, t2.2.2 with
       | some l1, some l2 =>
           some (((reshapeW (l1.length / w.length) l1).zip (l2.map (fun x => [x]))).map
             (fun p => p.1 ++ p.2))
       | _, _ => none)

/-! Clip-range search, `search_clip` (source lines 300-340). -/

/-- Elementwise mean squared error
`(org_weight - cur_weight).float().pow(2).mean().item()`. -/
def mseLoss (a b : List (List ℚ)) : ℚ :=
  let d := (a.zip b).map (fun p => (p.1.zip p.2).map (fun q => (q.1 - q.2) ^ 2))
  d.flatten.sum / (d.flatten.length : ℚ)

/-- One update of the running `(best_error, best_clip_ratio)` state; the
initial `best_error = inf` is modelled by `none`, and `is_best` is the
strict comparison `loss < best_error`. -/
def searchStep (lossAt : ℕ → ℚ) (valAt : ℕ → ℚ)
    (st : Option ℚ × Option ℚ) (i : ℕ) : Option ℚ × Option ℚ :=
  let loss := lossAt i
  let isBest := match st.1 with
    | none => true
    | some b => decide (loss < b)
  if isBest then (some loss, some (valAt i)) else st

/-- search_clip: grid of `int(max_shrink * n_grid) = 40` candidate
quantiles `1 - i/200`, scored by `mseLoss` against the original weight;
returns the best quantile. -/
def search_clip (w : List (List ℚ)) (numBits groupSize : ℤ) (scheme : Scheme)
    (dt : DType) (fullRange : Bool) : Option ℚ :=
  ((List.range 40).foldl
    (searchStep
      (fun i => mseLoss w (quant_weight w numBits groupSize scheme
        (1 - (i : ℚ) / 200) dt fullRange))
      (fun i => 1 - (i : ℚ) / 200))
    (none, none)).2

/-! Bit-packing store, `WeightOnlyLinear` (source lines 346-534), with the
default configuration `compression_dtype=torch.int32` (so
`compress_bits = 32`, `n_pack = 32 / bits`), `compression_dim=1`, and the
uniform integer data-type tag.  Packed `int32` words are modelled by their
32-bit pattern, a natural number below `2^32`. -/

/-- Reinterpret a 32-bit pattern as a signed `int32` value. -/
def toSigned32 (p : ℕ) : ℤ := if p < 2 ^ 31 then (p : ℤ) else (p : ℤ) - 2 ^ 32

/-- Truncating cast to `int8` (`.type(torch.int8)`). -/
def toInt8 (z : ℤ) : ℤ := (z + 128) % 256 - 128

/-- Pack one group of `n_pack` consecutive integers into one storage word
(source lines 453-460): mask each value to `bits` bits
(`tmp[:, e] &= mask`, two's complement, hence `emod 2^bits`), shift left by
`bits * e` and OR into the word. -/
def packWord (bits : ℕ) (chunk : List ℤ) : ℕ :=
  chunk.enum.foldl
    (fun acc p => acc ||| (((p.2 % (2 ^ bits : ℤ)).toNat) <<< (bits * p.1))) 0

/-- Pack one row: column slices `[:, n_pack*j : n_pack*(j+1)]` are the
chunks of size `n_pack = 32 / bits`. -/
def packRow (bits : ℕ) (row : List ℤ) : List ℕ :=
  (chunkBy (32 / bits) row).map (packWord bits)

/-- WeightOnlyLinear.pack on the weight buffer (compression_dim = 1). -/
def packMatrix (bits : ℕ) (m : List (List ℤ)) : List (List ℕ) :=
  m.map (packRow bits)

/-- Extract field `e` from a storage word (source lines 500-505):
`tmp = word << (compress_bits - bits*(e+1))` in `int32` (the pattern wraps
modulo `2^32`), then the arithmetic right shift
`tmp >> (compress_bits - bits)` (floor division of the signed value), then
the cast to the `int8` unpacked buffer. -/
def extractElem (bits : ℕ) (word : ℕ) (e : ℕ) : ℤ :=
  toInt8 ((toSigned32 ((word <<< (32 - bits * (e + 1))) % 2 ^ 32)).fdiv
    (2 ^ (32 - bits)))

/-- The unpacked `int8` weight buffer of `WeightOnlyLinear.recover`
(source lines 488-505): element `(r, idx)` is written from word
`idx / n_pack`, field `idx % n_pack` (the source loops over `j` and `e`
with `index = j * n_pack + e`, skipping `index >= in_features`; this is the
same assignment indexed by destination). -/
def unpackedWeight (bits outF inF : ℕ) (packed : List (List ℕ)) :
    List (List ℤ) :=
  (List.range outF).map (fun r =>
    (List.range inF).map (fun idx =>
      extractElem bits ((packed.getD r []).getD (idx / (32 / bits)) 0)
        (idx % (32 / bits))))

/-- Group-wise dequantization of `WeightOnlyLinear.recover`
(source lines 514-529): if the group size does not divide `in_features`,
the left block is grouped and multiplied by `scale[:, :-1]` and the
remainder block by `scale[:, -1:]`; otherwise every group is scaled. -/
def recoverDequant (inF groupsize : ℕ) (weight : List (List ℤ))
    (scale : List (List ℚ)) : List (List ℚ) :=
  if inF % groupsize ≠ 0 then
    let si := inF / groupsize * groupsize
    let weight1 := chunkBy groupsize ((weight.map (fun r => r.take si)).flatten)
    let scale1 := (scale.map (fun r => r.dropLast)).flatten
    let w1 := (weight1.zip scale1).map (fun p => p.1.map (fun (v : ℤ) => (v : ℚ) * p.2))
    let weight1out := reshapeW si w1.flatten
    let weight2 := weight.map (fun r => r.drop si)
    let scale2 := scale.map (fun r => r.drop (r.length - 1))
    let w2 := (weight2.zip scale2).map
      (fun p => p.1.map (fun (v : ℤ) => (v : ℚ) * (p.2.getD 0 0)))
    (weight1out.zip w2).map (fun p => p.1 ++ p.2)
  else
    let grouped := chunkBy groupsize weight.flatten
    let scaleCol := scale.flatten
    let fp := (grouped.zip scaleCol).map (fun p => p.1.map (fun (v : ℤ) => (v : ℚ) * p.2))
    reshapeW inF fp.flatten

/-- WeightOnlyLinear.recover for the uniform integer data type:
unpack the `int8` buffer from the packed words, then dequantize group-wise
(`groupsize` is `in_features` when the store was built with
`group_size = -1`). -/
def wolRecover (bits outF inF groupsize : ℕ) (packed : List (List ℕ))
    (scale : List (List ℚ)) : List (List ℚ) :=
  recoverDequant inF groupsize (unpackedWeight bits outF inF packed) scale

/-! Claim C4: structure of the non-uniform code tables. -/

/-- C4, counterexample: the claim says every codec family defines sixteen
representative floats and sixteen parallel codes, but the FP4 (bitsandbytes)
family defines only fifteen of each. -/
theorem c4_counterexample :
    FP4_BNB.length ≠ 16 ∧ FP4_BNB.length = 15 ∧ FP4_BNB_BIT.length = 15 := by
  refine ⟨by decide, by decide, by decide⟩

/-- C4, amended: NF4 defines sixteen levels while the FP4 families define
fifteen; in each family the float table is strictly ascending, the code
list is parallel (same length, same order), every code lies in `[-8, 7]`,
and the codes are pairwise distinct, so each level maps bidirectionally
between its float value and its integer code. -/
theorem c4_code_tables :
    NF4.length = 16 ∧ NF4_BIT.length = 16 ∧
    FP4_BNB.length = 15 ∧ FP4_BNB_BIT.length = 15 ∧
    FP4_E2M1.length = 15 ∧ FP4_E2M1_BIT.length = 15 ∧
    List.Chain' (· < ·) NF4 ∧ List.Chain' (· < ·) FP4_BNB ∧
    List.Chain' (· < ·) FP4_E2M1 ∧
    (∀ c ∈ NF4_BIT, -8 ≤ c ∧ c ≤ 7) ∧
    (∀ c ∈ FP4_BNB_BIT, -8 ≤ c ∧ c ≤ 7) ∧
    (∀ c ∈ FP4_E2M1_BIT, -8 ≤ c ∧ c ≤ 7) ∧
    NF4_BIT.Nodup ∧ FP4_BNB_BIT.Nodup ∧ FP4_E2M1_BIT.Nodup := by
  refine ⟨by decide, by decide, by decide, by decide, by decide, by decide,
    ?_, ?_, ?_, by decide, by decide, by decide, by decide, by decide, by decide⟩
  · norm_num [NF4]
  · norm_num [FP4_BNB]
  · norm_num [FP4_E2M1]

/-! Helper lemmas about row extrema. -/

lemma foldl_max_all_zero (a : ℚ) (l : List ℚ) (ha : a = 0)
    (h : ∀ x ∈ l, x = 0) : l.foldl max a = 0 := by
  induction l generalizing a with
  | nil => simpa using ha
  | cons x xs ih =>
      simp only [List.foldl_cons]
      exact ih _ (by simp [ha, h x (by simp)]) (fun y hy => h y (by simp [hy]))

lemma foldl_min_all_zero (a : ℚ) (l : List ℚ) (ha : a = 0)
    (h : ∀ x ∈ l, x = 0) : l.foldl min a = 0 := by
  induction l generalizing a with
  | nil => simpa using ha
  | cons x xs ih =>
      simp only [List.foldl_cons]
      exact ih _ (by simp [ha, h x (by simp)]) (fun y hy => h y (by simp [hy]))

lemma rowMax_all_zero (row : List ℚ) (h : ∀ x ∈ row, x = 0) : rowMax row = 0 := by
  cases row with
  | nil => rfl
  | cons x xs =>
      exact foldl_max_all_zero x xs (h x (by simp)) (fun y hy => h y (by simp [hy]))

lemma rowMin_all_zero (row : List ℚ) (h : ∀ x ∈ row, x = 0) : rowMin row = 0 := by
  cases row with
  | nil => rfl
  | cons x xs =>
      exact foldl_min_all_zero x xs (h x (by simp)) (fun y hy => h y (by simp [hy]))

lemma symBounds_of_two_le (numBits : ℕ) (hb : 2 ≤ numBits) :
    symBounds numBits = (-(2 ^ (numBits - 1)), 2 ^ (numBits - 1) - 1) := by
  have : numBits ≠ 1 := by omega
  simp [symBounds, this]

/-! Claim C2: the symmetric `full_range` scale and its sign flip. -/

/-- C2, counterexample: for the row `[-2, 1]` (so `|min| = 2 > 1 = |max|`)
with 4 bits, quantile 1 and `full_range`, the claim requires the scale sign
to be flipped negative, but the code computes the positive scale `1/4`:
the code flips on `|max| > |min|`, not on `|min| > |max|`. -/
theorem c2_counterexample :
    |rowMin [(-2 : ℚ), 1]| > |rowMax [(-2 : ℚ), 1]| ∧
    symScale [(-2 : ℚ), 1] 4 1 true = 1/4 ∧ ¬ symScale [(-2 : ℚ), 1] 4 1 true < 0 := by
  refine ⟨by norm_num [rowMin, rowMax], ?_, ?_⟩ <;>
    norm_num [symScale, symBounds, rowMin, rowMax]

/-- C2, amended: with `full_range` the divisor is `2^(bits-1)` and the scale
sign is flipped to negative exactly when the row's `|max|` is strictly
greater than its `|min|` (not, as the claim says, when `|min| > |max|`);
without `full_range` the divisor is `2^(bits-1)-1` and no flip occurs. -/
theorem c2_sym_full_range_scale (row : List ℚ) (numBits : ℕ) (quantile : ℚ)
    (hb : 2 ≤ numBits) :
    symScale row numBits quantile true =
      (let wmax0 := max |rowMax row| |rowMin row| * quantile
       let wmax : ℚ := if wmax0 = 0 then 1 else wmax0
       if |rowMax row| > |rowMin row| then -(wmax / 2 ^ (numBits - 1))
       else wmax / 2 ^ (numBits - 1)) ∧
    symScale row numBits quantile false =
      (let wmax0 := max |rowMax row| |rowMin row| * quantile
       let wmax : ℚ := if wmax0 = 0 then 1 else wmax0
       wmax / (2 ^ (numBits - 1) - 1)) := by
  have hB := symBounds_of_two_le numBits hb
  constructor
  · by_cases hflip : |rowMax row| > |rowMin row|
    · simp [symScale, hB, hflip]
      ring
    · simp [symScale, hB, hflip]
  · simp [symScale, hB]

/-- C2, witness for the amended theorem at `row = [-2, 1]`, 4 bits. -/
theorem c2_witness :
    2 ≤ 4 ∧
    (symScale [(-2 : ℚ), 1] 4 1 true =
      (let wmax0 := max |rowMax [(-2 : ℚ), 1]| |rowMin [(-2 : ℚ), 1]| * 1
       let wmax : ℚ := if wmax0 = 0 then 1 else wmax0
       if |rowMax [(-2 : ℚ), 1]| > |rowMin [(-2 : ℚ), 1]| then -(wmax / 2 ^ (4 - 1))
       else wmax / 2 ^ (4 - 1)) ∧
    symScale [(-2 : ℚ), 1] 4 1 false =
      (let wmax0 := max |rowMax [(-2 : ℚ), 1]| |rowMin [(-2 : ℚ), 1]| * 1
       let wmax : ℚ := if wmax0 = 0 then 1 else wmax0
       wmax / (2 ^ (4 - 1) - 1))) :=
  ⟨by norm_num, c2_sym_full_range_scale [(-2 : ℚ), 1] 4 1 (by norm_num)⟩

/-! Claims C3 and C8: degenerate all-zero rows and the resulting scales. -/

lemma two_pow_pred_sub_one_ne_zero (numBits : ℕ) (hb : 2 ≤ numBits) :
    ((2 : ℚ) ^ (numBits - 1) - 1) ≠ 0 := by
  have h2 : (2 : ℚ) = 2 ^ 1 := (pow_one 2).symm
  have : (2 : ℚ) ≤ 2 ^ (numBits - 1) := by
    rw [h2]
    exact pow_le_pow_right₀ (by norm_num) (by omega)
  linarith

/-- C3, counterexample: the non-uniform 4-bit codec has no synthetic-bounds
guard, so the per-row scale of `quantize_4bit` on an all-zero row is exactly
zero (and the subsequent `tensor / scale` divides by zero). -/
theorem c3_counterexample :
    q4Scale [0, 0] 1 ((FLOAT_MAPPING DType.nf4).getD []) = 0 := by
  simp [q4Scale, rowMax]

/-- C3, amended: the uniform codecs do guard all-zero rows: symmetric
quantization forces the row maximum to `1` and asymmetric quantization
forces the bounds to `±1`, so in both uniform schemes the computed scale is
never zero; the non-uniform 4-bit codec has no such guard and produces a
zero scale on all-zero rows. -/
theorem c3_zero_guard (row : List ℚ) (numBits : ℕ) (quantile : ℚ)
    (fullRange : Bool) (hb : 2 ≤ numBits) (hz : ∀ x ∈ row, x = 0) :
    symScale row numBits quantile fullRange ≠ 0 ∧
    (asymParams row numBits quantile).1 = 2 / (2 ^ numBits - 1) ∧
    (asymParams row numBits quantile).1 ≠ 0 := by
  have hM : rowMax row = 0 := rowMax_all_zero row hz
  have hm : rowMin row = 0 := rowMin_all_zero row hz
  have hB := symBounds_of_two_le numBits hb
  have h2 : ((2 : ℚ) ^ (numBits - 1)) ≠ 0 := by positivity
  have h3 := two_pow_pred_sub_one_ne_zero numBits hb
  have h4 : ((2 : ℚ) ^ numBits - 1) ≠ 0 := by
    have h2' : (2 : ℚ) = 2 ^ 1 := (pow_one 2).symm
    have : (2 : ℚ) ≤ 2 ^ numBits := by
      rw [h2']
      exact pow_le_pow_right₀ (by norm_num) (by omega)
    linarith
  refine ⟨?_, ?_, ?_⟩
  · cases fullRange with
    | false =>
        simp only [symScale, hB, hM, hm]
        push_cast
        simp [h3]
    | true =>
        simp only [symScale, hB, hM, hm]
        push_cast
        simp [h2]
  · simp [asymParams, hM, hm]
    norm_num
  · simp [asymParams, hM, hm]
    norm_num [h4]

/-- C3, witness for the amended theorem at `row = [0, 0]`, 4 bits. -/
theorem c3_witness :
    (2 ≤ 4 ∧ ∀ x ∈ [(0 : ℚ), 0], x = 0) ∧
    (symScale [(0 : ℚ), 0] 4 1 false ≠ 0 ∧
     (asymParams [(0 : ℚ), 0] 4 1).1 = 2 / (2 ^ 4 - 1) ∧
     (asymParams [(0 : ℚ), 0] 4 1).1 ≠ 0) :=
  ⟨⟨by norm_num, by simp⟩,
   c3_zero_guard [(0 : ℚ), 0] 4 1 false (by norm_num) (by simp)⟩

/-- C8, counterexample: for an all-zero row with the default 4 bits
(non-`full_range`), the symmetric scale is `1/7`, not `1` as the claim
states (the forced quantity is the row maximum `wmax`, which is then still
divided by `2^(bits-1)-1`). -/
theorem c8_counterexample :
    symScale [(0 : ℚ), 0] 4 1 false = 1/7 ∧ (1/7 : ℚ) ≠ 1 := by
  have hM : rowMax [(0 : ℚ), 0] = 0 := by simp [rowMax]
  have hm : rowMin [(0 : ℚ), 0] = 0 := by simp [rowMin]
  constructor
  · simp only [symScale, symBounds, hM, hm]
    norm_num
  · norm_num

/-- C8, amended: for an all-zero row the forced row maximum is `1`, and the
resulting symmetric scale is `1/(2^(bits-1)-1)` without `full_range` and
`1/2^(bits-1)` with it — equal to `1` only in the degenerate 2-bit
non-`full_range` case — and in particular never `0`. -/
theorem c8_sym_all_zero_scale (row : List ℚ) (numBits : ℕ) (quantile : ℚ)
    (hb : 2 ≤ numBits) (hz : ∀ x ∈ row, x = 0) :
    symScale row numBits quantile false = 1 / (2 ^ (numBits - 1) - 1) ∧
    symScale row numBits quantile true = 1 / 2 ^ (numBits - 1) ∧
    symScale row numBits quantile false ≠ 0 := by
  have hM : rowMax row = 0 := rowMax_all_zero row hz
  have hm : rowMin row = 0 := rowMin_all_zero row hz
  have hB := symBounds_of_two_le numBits hb
  have h3 := two_pow_pred_sub_one_ne_zero numBits hb
  refine ⟨?_, ?_, ?_⟩
  · simp only [symScale, hB, hM, hm]
    push_cast
    simp
  · simp only [symScale, hB, hM, hm]
    push_cast
    simp
  · simp only [symScale, hB, hM, hm]
    push_cast
    simp [h3]

/-- C8, witness for the amended theorem at `row = [0, 0, 0]`, 8 bits. -/
theorem c8_witness :
    (2 ≤ 8 ∧ ∀ x ∈ [(0 : ℚ), 0, 0], x = 0) ∧
    (symScale [(0 : ℚ), 0, 0] 8 1 false = 1 / (2 ^ (8 - 1) - 1) ∧
     symScale [(0 : ℚ), 0, 0] 8 1 true = 1 / 2 ^ (8 - 1) ∧
     symScale [(0 : ℚ), 0, 0] 8 1 false ≠ 0) :=
  ⟨⟨by norm_num, by simp⟩,
   c8_sym_all_zero_scale [(0 : ℚ), 0, 0] 8 1 (by norm_num) (by simp)⟩

/-! Claim C5: the asymmetric per-row formulas. -/

/-- C5: in asymmetric uniform quantization, per row,
`wmin = min(0, min(row)*quantile)` and `wmax = max(0, max(row)*quantile)`
(the code multiplies by the quantile after taking `min(.,0)`/`max(.,0)`,
which is the same thing for a nonnegative quantile); both zero forces
`wmin = -1, wmax = 1`; `scale = (wmax-wmin)/(2^bits-1)`;
`zero_point = round(-wmin/scale)`;
`q = clamp(round(w/scale) + zero_point, 0, 2^bits-1)`; and the dequantized
output is `scale * (q - zero_point)`. -/
theorem c5_asym_formulas (row : List ℚ) (numBits : ℕ) (quantile : ℚ)
    (hq : 0 ≤ quantile) :
    (let wmin := min 0 (rowMin row * quantile)
     let wmax := max 0 (rowMax row * quantile)
     let wminF : ℚ := if wmin = 0 ∧ wmax = 0 then -1 else wmin
     let wmaxF : ℚ := if wmin = 0 ∧ wmax = 0 then 1 else wmax
     let scale := (wmaxF - wminF) / (2 ^ numBits - 1)
     let zp := rnd (-wminF / scale)
     asymParams row numBits quantile = (scale, zp) ∧
     asymQRow row numBits quantile =
       row.map (fun x => clampZ (rnd (x / scale) + zp) 0 (2 ^ numBits - 1)) ∧
     qdq_weight_asym [row] numBits quantile =
       [(row.map (fun x => clampZ (rnd (x / scale) + zp) 0 (2 ^ numBits - 1))).map
          (fun (q : ℤ) => scale * ((q : ℚ) - (zp : ℚ)))]) := by
  have hmin : min (rowMin row) 0 * quantile = min 0 (rowMin row * quantile) := by
    rw [min_mul_of_nonneg _ _ hq, zero_mul, min_comm]
  have hmax : max (rowMax row) 0 * quantile = max 0 (rowMax row * quantile) := by
    rw [max_mul_of_nonneg _ _ hq, zero_mul, max_comm]
  refine ⟨?_, ?_, ?_⟩
  · simp only [asymParams, hmin, hmax]
  · simp only [asymQRow, asymParams, hmin, hmax]
  · simp only [qdq_weight_asym, asymQRow, asymParams, hmin, hmax, List.map_cons,
      List.map_nil]

/-- C5, witness at `row = [3, -2]`, 4 bits, quantile 1. -/
theorem c5_witness :
    (0 : ℚ) ≤ 1 ∧
    (let wmin := min 0 (rowMin [(3 : ℚ), -2] * 1)
     let wmax := max 0 (rowMax [(3 : ℚ), -2] * 1)
     let wminF : ℚ := if wmin = 0 ∧ wmax = 0 then -1 else wmin
     let wmaxF : ℚ := if wmin = 0 ∧ wmax = 0 then 1 else wmax
     let scale := (wmaxF - wminF) / (2 ^ 4 - 1)
     let zp := rnd (-wminF / scale)
     asymParams [(3 : ℚ), -2] 4 1 = (scale, zp) ∧
     asymQRow [(3 : ℚ), -2] 4 1 =
       [(3 : ℚ), -2].map (fun x => clampZ (rnd (x / scale) + zp) 0 (2 ^ 4 - 1)) ∧
     qdq_weight_asym [[(3 : ℚ), -2]] 4 1 =
       [([(3 : ℚ), -2].map (fun x => clampZ (rnd (x / scale) + zp) 0 (2 ^ 4 - 1))).map
          (fun (q : ℤ) => scale * ((q : ℚ) - (zp : ℚ)))]) :=
  ⟨by norm_num, c5_asym_formulas [(3 : ℚ), -2] 4 1 (by norm_num)⟩

/-! Claim C10: the bucket conditions of `quantize_4bit` partition the line. -/

lemma midData_length (allowData : List ℚ) :
    (midData allowData).length = allowData.length - 1 := by
  simp [midData]

/-- Some bucket accepts every value (no sortedness needed): take the least
midpoint index at or above `t`, or the last bucket if there is none. -/
lemma q4Cond_exists (mid : List ℚ) (n : ℕ) (hn : 2 ≤ n) (t : ℚ) :
    ∃ i, i < n ∧ q4Cond mid n i t := by
  classical
  by_cases h : ∃ i, i < n - 1 ∧ t ≤ mid.getD i 0
  · set k := Nat.find h with hkdef
    obtain ⟨hk1, hk2⟩ := Nat.find_spec h
    rw [← hkdef] at hk1 hk2
    by_cases hk0 : k = 0
    · refine ⟨0, by omega, ?_⟩
      rw [hk0] at hk2
      simpa [q4Cond] using hk2
    · refine ⟨k, by omega, ?_⟩
      have hkne : k ≠ n - 1 := by omega
      simp only [q4Cond, if_neg hk0, if_neg hkne]
      refine ⟨?_, hk2⟩
      have hmin := Nat.find_min h (m := k - 1) (by omega)
      push_neg at hmin
      exact hmin (by omega)
  · push_neg at h
    refine ⟨n - 1, by omega, ?_⟩
    have hne : n - 1 ≠ 0 := by omega
    simp only [q4Cond, if_neg hne, if_pos rfl]
    exact h (n - 1 - 1) (by omega)

/-- At most one bucket accepts a value, provided the midpoints are sorted. -/
lemma q4Cond_at_most_one (mid : List ℚ) (n : ℕ) (hlen : mid.length = n - 1)
    (hs : List.Chain' (· ≤ ·) mid) (t : ℚ) (i j : ℕ)
    (hj : j < n) (hij : i < j)
    (ci : q4Cond mid n i t) (cj : q4Cond mid n j t) : False := by
  have hmono : ∀ a b : ℕ, a ≤ b → b < mid.length →
      mid.getD a 0 ≤ mid.getD b 0 := by
    intro a b hab hb
    have ha := lt_of_le_of_lt hab hb
    rw [List.getD_eq_getElem _ _ ha, List.getD_eq_getElem _ _ hb]
    rcases eq_or_lt_of_le hab with rfl | hab'
    · exact le_rfl
    · have hp := List.chain'_iff_pairwise.mp hs
      have := List.pairwise_iff_get.mp hp ⟨a, ha⟩ ⟨b, hb⟩ hab'
      simpa using this
  have hi_lt : i < n - 1 := by omega
  have hit : t ≤ mid.getD i 0 := by
    by_cases hi0 : i = 0
    · rw [q4Cond] at ci
      rw [if_pos hi0] at ci
      rwa [hi0]
    · have hine : i ≠ n - 1 := by omega
      simp only [q4Cond, if_neg hi0, if_neg hine] at ci
      exact ci.2
  have hjt : mid.getD (j - 1) 0 < t := by
    have hj0 : j ≠ 0 := by omega
    by_cases hjn : j = n - 1
    · rw [q4Cond] at cj
      rw [if_neg hj0, if_pos hjn] at cj
      exact cj
    · simp only [q4Cond, if_neg hj0, if_neg hjn] at cj
      exact cj.1
  have : mid.getD i 0 ≤ mid.getD (j - 1) 0 := hmono i (j - 1) (by omega) (by omega)
  linarith

/-- Value of the accumulation loop when exactly one bucket accepts. -/
lemma foldl_add_ite_unique {M : Type} [AddCommMonoid M] (n : ℕ) (c : ℕ → Prop)
    [DecidablePred c] (d : ℕ → M) (i0 : ℕ) (hi0 : i0 < n) (hc : c i0)
    (huniq : ∀ j, j < n → c j → j = i0) :
    (List.range n).foldl (fun acc i => acc + (if c i then d i else 0)) 0 = d i0 := by
  have key : ∀ (l : List ℕ) (acc : M),
      l.foldl (fun acc i => acc + (if c i then d i else 0)) acc
        = acc + (l.map (fun i => if c i then d i else 0)).sum := by
    intro l
    induction l with
    | nil => intro acc; simp
    | cons x xs ih =>
        intro acc
        simp only [List.foldl_cons, List.map_cons, List.sum_cons, ih, add_assoc]
  rw [key, zero_add]
  clear key
  induction n with
  | zero => omega
  | succ m ih =>
      rw [List.range_succ, List.map_append, List.sum_append]
      by_cases him : i0 = m
      · have hzero : ((List.range m).map (fun i => if c i then d i else 0)).sum = 0 := by
          apply List.sum_eq_zero
          intro x hx
          simp only [List.mem_map, List.mem_range] at hx
          obtain ⟨i, hilt, rfl⟩ := hx
          have : ¬ c i := fun hci => absurd (huniq i (by omega) hci) (by omega)
          simp [this]
        simp [hzero, him ▸ hc, him]
      · have hi0m : i0 < m := by omega
        rw [ih hi0m (fun j hj hcj => huniq j (by omega) hcj)]
        have : ¬ c m := fun hcm => absurd (huniq m (by omega) hcm) (by omega)
        simp [this]

/-- Partition plus membership, generically in the code tables. -/
theorem q4_partition (allow dataQ : List ℚ) (dataZ : List ℤ)
    (hn : 2 ≤ allow.length) (hs : List.Chain' (· ≤ ·) (midData allow))
    (hdQ : dataQ.length = allow.length) (hdZ : dataZ.length = allow.length)
    (t : ℚ) :
    (∃! i, i < allow.length ∧ q4Cond (midData allow) allow.length i t) ∧
    q4Pick allow dataQ t ∈ dataQ ∧ q4PickZ allow dataZ t ∈ dataZ := by
  obtain ⟨i0, hi0, hc0⟩ := q4Cond_exists (midData allow) allow.length hn t
  have huniq : ∀ j, j < allow.length →
      q4Cond (midData allow) allow.length j t → j = i0 := by
    intro j hj hcj
    rcases lt_trichotomy j i0 with h | h | h
    · exact absurd (q4Cond_at_most_one (midData allow) allow.length
        (midData_length allow) hs t j i0 hi0 h hcj hc0) (by simp)
    · exact h
    · exact absurd (q4Cond_at_most_one (midData allow) allow.length
        (midData_length allow) hs t i0 j hj h hc0 hcj) (by simp)
  refine ⟨⟨i0, ⟨hi0, hc0⟩, fun j hj => huniq j hj.1 hj.2⟩, ?_, ?_⟩
  · rw [q4Pick, foldl_add_ite_unique allow.length _ _ i0 hi0 hc0 huniq,
      List.getD_eq_getElem _ _ (by omega)]
    exact List.getElem_mem _
  · rw [q4PickZ, foldl_add_ite_unique allow.length _ _ i0 hi0 hc0 huniq,
      List.getD_eq_getElem _ _ (by omega)]
    exact List.getElem_mem _

/-- C10: for each codec family, the bucket conditions of the
`quantize_4bit` loop partition the line — every normalized value `t`
satisfies exactly one condition — and hence the accumulated quantized value
(`q_tensor`, returned directly on the integer path and multiplied by the
scale on the float path) is always a member of the family's code table
(float data) respectively code-index list (integer data).  The
`fp4_e2m1_bnb` tag shares the `FP4_BNB` tables, so it is covered by the
`fp4` case. -/
theorem c10_bucket_partition (t : ℚ) :
    ((∃! i, i < NF4.length ∧ q4Cond (midData NF4) NF4.length i t) ∧
      q4Pick NF4 NF4 t ∈ NF4 ∧ q4PickZ NF4 NF4_BIT t ∈ NF4_BIT) ∧
    ((∃! i, i < FP4_BNB.length ∧ q4Cond (midData FP4_BNB) FP4_BNB.length i t) ∧
      q4Pick FP4_BNB FP4_BNB t ∈ FP4_BNB ∧
      q4PickZ FP4_BNB FP4_BNB_BIT t ∈ FP4_BNB_BIT) ∧
    ((∃! i, i < FP4_E2M1.length ∧ q4Cond (midData FP4_E2M1) FP4_E2M1.length i t) ∧
      q4Pick FP4_E2M1 FP4_E2M1 t ∈ FP4_E2M1 ∧
      q4PickZ FP4_E2M1 FP4_E2M1_BIT t ∈ FP4_E2M1_BIT) := by
  refine ⟨q4_partition NF4 NF4 NF4_BIT (by decide) ?_ rfl (by decide) t,
    q4_partition FP4_BNB FP4_BNB FP4_BNB_BIT (by decide) ?_ rfl (by decide) t,
    q4_partition FP4_E2M1 FP4_E2M1 FP4_E2M1_BIT (by decide) ?_ rfl (by decide) t⟩
  · norm_num [midData, NF4, List.range_succ]
  · norm_num [midData, FP4_BNB, List.range_succ]
  · norm_num [midData, FP4_E2M1, List.range_succ]

/-! Claim C7: behaviour of `quant_weight` on non-positive bit widths. -/

lemma qdq_weight_actorE_ok (w : List (List ℚ)) (numBits : ℤ) (scheme : Scheme)
    (quantile : ℚ) (dt : DType) (fullRange : Bool) (hb : ¬ numBits ≤ 0) :
    qdq_weight_actorE w numBits scheme quantile dt fullRange
      = .ok (qdq_weight_actor w numBits scheme quantile dt fullRange) := by
  simp [qdq_weight_actorE, hb]

/-- The `num_bits > 0` assertion of `qdq_weight_actor` is unreachable
through `quant_weight`: the entry point never raises. -/
lemma quant_weightE_eq_ok (w : List (List ℚ)) (numBits groupSize : ℤ)
    (scheme : Scheme) (quantile : ℚ) (dt : DType) (fullRange : Bool) :
    quant_weightE w numBits groupSize scheme quantile dt fullRange
      = .ok (quant_weight w numBits groupSize scheme quantile dt fullRange) := by
  by_cases hb : numBits ≤ 0
  · simp [quant_weightE, quant_weight, hb]
  · by_cases h1 : groupSize = -1 ∨ (cols w : ℤ) < groupSize
    · simp [quant_weightE, quant_weight, hb, h1, qdq_weight_actorE_ok _ _ _ _ _ _ hb]
    · by_cases h2 : (cols w) % groupSize.toNat = 0
      · simp [quant_weightE, quant_weight, hb, h1, h2,
          qdq_weight_actorE_ok _ _ _ _ _ _ hb, Except.map]
      · simp [quant_weightE, quant_weight, hb, h1, h2,
          qdq_weight_actorE_ok _ _ _ _ _ _ hb, Except.map, Except.bind]

/-- C7, counterexample: calling `quant_weight` with bit width `0` does not
fail: it silently returns the weight unchanged.  (The
`num_bits should be larger than 0` assertion lives in `qdq_weight_actor`,
which the `num_bits <= 0` early return of `quant_weight` shields.) -/
theorem c7_counterexample :
    quant_weightE [[(1 : ℚ)]] 0 32 Scheme.asym 1 DType.int false
      = .ok [[(1 : ℚ)]] := by
  simp [quant_weightE]

/-- C7, amended: for every weight and every non-positive bit width,
`quant_weight` returns the input weight unchanged and raises no error;
the precondition assertion exists only in `qdq_weight_actor`, which is
never reached in that case. -/
theorem c7_nonpositive_bits (w : List (List ℚ)) (numBits groupSize : ℤ)
    (scheme : Scheme) (quantile : ℚ) (dt : DType) (fullRange : Bool)
    (hb : numBits ≤ 0) :
    quant_weightE w numBits groupSize scheme quantile dt fullRange = .ok w ∧
    quant_weight w numBits groupSize scheme quantile dt fullRange = w := by
  constructor <;> simp [quant_weightE, quant_weight, hb]

/-- C7, witness at a concrete weight and bit width `-3`. -/
theorem c7_witness :
    (-3 : ℤ) ≤ 0 ∧
    (quant_weightE [[(2 : ℚ), 5]] (-3) 32 Scheme.sym 1 DType.int false
        = .ok [[(2 : ℚ), 5]] ∧
     quant_weight [[(2 : ℚ), 5]] (-3) 32 Scheme.sym 1 DType.int false
        = [[(2 : ℚ), 5]]) :=
  ⟨by norm_num,
   c7_nonpositive_bits [[(2 : ℚ), 5]] (-3) 32 Scheme.sym 1 DType.int false
     (by norm_num)⟩

/-! Claim C6: the clip-range grid search. -/

/-- Invariant of the search fold: after `n > 0` iterations the state holds
the loss and value of the earliest minimizer among `0, …, n-1`. -/
lemma searchLoop_spec (lossAt valAt : ℕ → ℚ) (n : ℕ) (hn : 0 < n) :
    ∃ i0, i0 < n ∧
      (List.range n).foldl (searchStep lossAt valAt) (none, none)
        = (some (lossAt i0), some (valAt i0)) ∧
      (∀ i, i < n → lossAt i0 ≤ lossAt i) ∧
      (∀ i, i < i0 → lossAt i0 < lossAt i) := by
  induction n with
  | zero => omega
  | succ m ih =>
      by_cases hm : m = 0
      · subst hm
        refine ⟨0, by omega, by simp [searchStep, List.range_succ], ?_, ?_⟩
        · intro i hi
          interval_cases i
          exact le_rfl
        · intro i hi
          omega
      · obtain ⟨i0, hi0, hst, hmin, hstrict⟩ := ih (by omega)
        rw [List.range_succ, List.foldl_append, hst]
        simp only [List.foldl_cons, List.foldl_nil]
        by_cases hbest : lossAt m < lossAt i0
        · refine ⟨m, by omega, by simp [searchStep, hbest], ?_, ?_⟩
          · intro i hi
            rcases Nat.lt_succ_iff_lt_or_eq.mp hi with h | rfl
            · exact le_of_lt (lt_of_lt_of_le hbest (hmin i h))
            · exact le_rfl
          · intro i hi
            exact lt_of_lt_of_le hbest (hmin i (by omega))
        · refine ⟨i0, by omega, by simp [searchStep, hbest], ?_, ?_⟩
          · intro i hi
            rcases Nat.lt_succ_iff_lt_or_eq.mp hi with h | rfl
            · exact hmin i h
            · exact not_lt.mp hbest
          · exact hstrict

/-- C6: the clip search evaluates the 40 quantiles `1 - i/200`
(`i = 0, …, 39`, descending from `1.0` to `0.805`), scores each by mean
squared reconstruction error, and returns the earliest (hence highest)
quantile attaining the minimal error; in particular the error at the
returned quantile is at most the error at quantile `1.0`. -/
theorem c6_search_clip (w : List (List ℚ)) (numBits groupSize : ℤ)
    (scheme : Scheme) (dt : DType) (fullRange : Bool) :
    ∃ i0 : ℕ, i0 < 40 ∧
      search_clip w numBits groupSize scheme dt fullRange
        = some (1 - (i0 : ℚ) / 200) ∧
      (∀ i : ℕ, i < 40 →
        mseLoss w (quant_weight w numBits groupSize scheme
            (1 - (i0 : ℚ) / 200) dt fullRange)
          ≤ mseLoss w (quant_weight w numBits groupSize scheme
            (1 - (i : ℚ) / 200) dt fullRange)) ∧
      (∀ i : ℕ, i < i0 →
        mseLoss w (quant_weight w numBits groupSize scheme
            (1 - (i0 : ℚ) / 200) dt fullRange)
          < mseLoss w (quant_weight w numBits groupSize scheme
            (1 - (i : ℚ) / 200) dt fullRange)) ∧
      mseLoss w (quant_weight w numBits groupSize scheme
          (1 - (i0 : ℚ) / 200) dt fullRange)
        ≤ mseLoss w (quant_weight w numBits groupSize scheme 1 dt fullRange) := by
  obtain ⟨i0, hi0, hst, hmin, hstrict⟩ := searchLoop_spec
    (fun i => mseLoss w (quant_weight w numBits groupSize scheme
      (1 - (i : ℚ) / 200) dt fullRange))
    (fun i => 1 - (i : ℚ) / 200) 40 (by norm_num)
  refine ⟨i0, hi0, ?_, hmin, hstrict, ?_⟩
  · rw [search_clip, hst]
  · have h0 := hmin 0 (by norm_num)
    simpa using h0

/-! Structural lemmas about `chunkBy`. -/

lemma chunksGo_nil {α : Type} (n f : ℕ) : chunksGo n f ([] : List α) = [] := by
  cases f <;> rfl

lemma chunksGo_eq {α : Type} (n : ℕ) (hn : 0 < n) :
    ∀ (f1 : ℕ) (l : List α) (f2 : ℕ), l.length ≤ f1 → l.length ≤ f2 →
      chunksGo n f1 l = chunksGo n f2 l := by
  intro f1
  induction f1 with
  | zero =>
      intro l f2 h1 _
      have : l = [] := List.eq_nil_of_length_eq_zero (by omega)
      subst this
      rw [chunksGo_nil, chunksGo_nil]
  | succ f ih =>
      intro l f2 h1 h2
      cases l with
      | nil => rw [chunksGo_nil, chunksGo_nil]
      | cons x xs =>
          cases f2 with
          | zero => simp at h2
          | succ f2' =>
              show ((x :: xs).take n :: chunksGo n f ((x :: xs).drop n))
                = ((x :: xs).take n :: chunksGo n f2' ((x :: xs).drop n))
              have hd : ((x :: xs).drop n).length = (x :: xs).length - n :=
                List.length_drop n (x :: xs)
              have hlen : (x :: xs).length = xs.length + 1 := by simp
              rw [ih ((x :: xs).drop n) f2' (by omega) (by omega)]

lemma chunkBy_nil {α : Type} (n : ℕ) : chunkBy n ([] : List α) = [] := rfl

lemma chunkBy_cons {α : Type} (n : ℕ) (hn : 0 < n) (x : α) (xs : List α) :
    chunkBy n (x :: xs) = (x :: xs).take n :: chunkBy n ((x :: xs).drop n) := by
  show chunksGo n (xs.length + 1) (x :: xs) = _
  show ((x :: xs).take n :: chunksGo n xs.length ((x :: xs).drop n)) = _
  rw [chunkBy]
  rw [chunksGo_eq n hn xs.length ((x :: xs).drop n) ((x :: xs).drop n).length
    (by simp; omega) le_rfl]

lemma chunkBy_ne_nil_cons {α : Type} (n : ℕ) (hn : 0 < n) (l : List α)
    (hl : l ≠ []) : chunkBy n l = l.take n :: chunkBy n (l.drop n) := by
  cases l with
  | nil => exact absurd rfl hl
  | cons x xs => exact chunkBy_cons n hn x xs

/-- Chunking a row-major flattening of rows of width `n` recovers the rows
(`reshape(-1, n)` after flattening is the identity on an `(r, n)` matrix). -/
lemma chunkBy_flatten_of_rect {α : Type} (n : ℕ) (hn : 0 < n)
    (m : List (List α)) (hr : ∀ r ∈ m, r.length = n) :
    chunkBy n m.flatten = m := by
  induction m with
  | nil => simp [chunkBy_nil]
  | cons r rs ih =>
      have hrlen : r.length = n := hr r (by simp)
      have hrne : r ≠ [] := by
        intro h
        rw [h] at hrlen
        simp at hrlen
        omega
      have hflat : (r :: rs).flatten = r ++ rs.flatten := by simp
      rw [hflat, chunkBy_ne_nil_cons n hn _ (by simp [hrne])]
      rw [List.take_left' hrlen, List.drop_left' hrlen]
      rw [ih (fun c hc => hr c (by simp [hc]))]

/-- Chunking a list of length `k * n` yields `k` chunks, all of width `n`. -/
lemma chunkBy_spec_of_mul {α : Type} (n : ℕ) (hn : 0 < n) :
    ∀ (k : ℕ) (l : List α), l.length = k * n →
      (chunkBy n l).length = k ∧ ∀ c ∈ chunkBy n l, c.length = n := by
  intro k
  induction k with
  | zero =>
      intro l hl
      have : l = [] := List.eq_nil_of_length_eq_zero (by omega)
      subst this
      simp [chunkBy_nil]
  | succ j ih =>
      intro l hl
      have hlen : l.length = (j + 1) * n := hl
      have hne : l ≠ [] := by
        intro h
        subst h
        simp at hlen
        omega
      rw [chunkBy_ne_nil_cons n hn l hne]
      have htake : (l.take n).length = n := by
        simp
        calc n ≤ (j + 1) * n := by nlinarith
        _ = l.length := hlen.symm
      have hdrop : (l.drop n).length = j * n := by
        simp [hlen]
        ring_nf
        omega
      obtain ⟨h1, h2⟩ := ih (l.drop n) hdrop
      refine ⟨by simp [h1], ?_⟩
      intro c hc
      rcases List.mem_cons.mp hc with rfl | hc'
      · exact htake
      · exact h2 c hc'

/-- Indexing into the chunking: element `i` of `l` is element `i % n` of
chunk `i / n`, and that position is in bounds. -/
lemma chunkBy_getD {α : Type} (n : ℕ) (hn : 0 < n) (d : α) :
    ∀ (fuel : ℕ) (l : List α), l.length ≤ fuel → ∀ i, i < l.length →
      (i % n) < ((chunkBy n l).getD (i / n) []).length ∧
      ((chunkBy n l).getD (i / n) []).getD (i % n) d = l.getD i d := by
  intro fuel
  induction fuel with
  | zero =>
      intro l hl i hi
      omega
  | succ f ih =>
      intro l hl i hi
      have hne : l ≠ [] := by
        intro h
        subst h
        simp at hi
      rw [chunkBy_ne_nil_cons n hn l hne]
      by_cases hin : i < n
      · have hdiv : i / n = 0 := Nat.div_eq_of_lt hin
        have hmod : i % n = i := Nat.mod_eq_of_lt hin
        rw [hdiv, hmod]
        constructor
        · simp
          omega
        · show (l.take n).getD i d = l.getD i d
          rw [List.getD_eq_getElem?_getD, List.getD_eq_getElem?_getD]
          simp [List.getElem?_take, hin]
      · push_neg at hin
        obtain ⟨j, rfl⟩ : ∃ j, i = n + j := ⟨i - n, by omega⟩
        have hdiv : (n + j) / n = j / n + 1 := by
          rw [Nat.add_comm, Nat.add_div_right _ hn]
        have hmod : (n + j) % n = j % n := Nat.add_mod_left n j
        rw [hdiv, hmod]
        show (j % n) < ((chunkBy n (l.drop n)).getD (j / n) []).length ∧
          ((chunkBy n (l.drop n)).getD (j / n) []).getD (j % n) d = l.getD (n + j) d
        have hjlt : j < (l.drop n).length := by
          simp
          omega
        obtain ⟨h1, h2⟩ := ih (l.drop n) (by simp; omega) j hjlt
        refine ⟨h1, ?_⟩
        rw [h2]
        rw [List.getD_eq_getElem?_getD, List.getD_eq_getElem?_getD,
          List.getElem?_drop]

/-! Bit-level lemmas: OR of disjoint fields is addition, and a packed word
is the weighted sum of its masked fields. -/

lemma testBit_add_mul_two_pow (a c k : ℕ) (ha : a < 2 ^ k) (i : ℕ) :
    (a + c * 2 ^ k).testBit i = (a.testBit i || (c * 2 ^ k).testBit i) := by
  by_cases hik : i < k
  · have hsplit : c * 2 ^ k = c * 2 ^ (k - i) * 2 ^ i := by
      rw [mul_assoc, ← pow_add]
      congr 2
      omega
    have h1 : (c * 2 ^ k).testBit i = false := by
      rw [Nat.testBit_to_div_mod, hsplit,
        Nat.mul_div_cancel _ (Nat.two_pow_pos i)]
      have h2 : c * 2 ^ (k - i) = c * 2 ^ (k - i - 1) * 2 := by
        rw [mul_assoc, ← pow_succ]
        congr 2
        omega
      rw [h2, Nat.mul_mod_left]
      simp
    have h2 : (a + c * 2 ^ k).testBit i = a.testBit i := by
      rw [Nat.testBit_to_div_mod, Nat.testBit_to_div_mod, hsplit,
        Nat.add_mul_div_right _ _ (Nat.two_pow_pos i)]
      have h3 : c * 2 ^ (k - i) = c * 2 ^ (k - i - 1) * 2 := by
        rw [mul_assoc, ← pow_succ]
        congr 2
        omega
      rw [h3, Nat.add_mul_mod_self_right]
    rw [h1, h2, Bool.or_false]
  · push_neg at hik
    have ha' : a.testBit i = false :=
      Nat.testBit_lt_two_pow (lt_of_lt_of_le ha (Nat.pow_le_pow_right (by norm_num) hik))
    have hdd : (a + c * 2 ^ k) / 2 ^ i = (c * 2 ^ k) / 2 ^ i := by
      have hsplit : (2 : ℕ) ^ i = 2 ^ k * 2 ^ (i - k) := by
        rw [← pow_add]
        congr 1
        omega
      rw [hsplit, ← Nat.div_div_eq_div_mul, ← Nat.div_div_eq_div_mul]
      congr 1
      rw [Nat.add_mul_div_right _ _ (Nat.two_pow_pos k),
        Nat.mul_div_cancel _ (Nat.two_pow_pos k), Nat.div_eq_of_lt ha, Nat.zero_add]
    rw [ha', Bool.false_or, Nat.testBit_to_div_mod, Nat.testBit_to_div_mod, hdd]

lemma lor_eq_add_of_lt (a c k : ℕ) (ha : a < 2 ^ k) :
    a ||| c * 2 ^ k = a + c * 2 ^ k := by
  apply Nat.eq_of_testBit_eq
  intro i
  rw [Nat.testBit_lor, testBit_add_mul_two_pow a c k ha i]

/-- The masked field value packed for a source integer. -/
def maskedVal (bits : ℕ) (v : ℤ) : ℕ := (v % (2 ^ bits : ℤ)).toNat

lemma maskedVal_lt (bits : ℕ) (v : ℤ) : maskedVal bits v < 2 ^ bits := by
  have h1 : (0 : ℤ) < 2 ^ bits := by positivity
  have h2 := Int.emod_lt_of_pos v (show (0:ℤ) < 2 ^ bits from h1)
  have h3 := Int.emod_nonneg v (show (2:ℤ) ^ bits ≠ 0 by positivity)
  rw [maskedVal]
  zify
  rw [Int.toNat_of_nonneg h3]
  exact h2

lemma packWord_go (bits : ℕ) :
    ∀ (chunk : List ℤ) (s : ℕ) (acc : ℕ), acc < 2 ^ (bits * s) →
      (List.enumFrom s chunk).foldl
        (fun acc p => acc ||| (((p.2 % (2 ^ bits : ℤ)).toNat) <<< (bits * p.1))) acc
      = acc + ∑ k ∈ Finset.range chunk.length,
          maskedVal bits (chunk.getD k 0) * 2 ^ (bits * (s + k)) := by
  intro chunk
  induction chunk with
  | nil => simp
  | cons v rest ih =>
      intro s acc hacc
      have hm : maskedVal bits v < 2 ^ bits := maskedVal_lt bits v
      have hstep : acc ||| (((v % (2 ^ bits : ℤ)).toNat) <<< (bits * s))
          = acc + maskedVal bits v * 2 ^ (bits * s) := by
        rw [Nat.shiftLeft_eq]
        exact lor_eq_add_of_lt acc (maskedVal bits v) (bits * s) hacc
      have hacc' : acc + maskedVal bits v * 2 ^ (bits * s) < 2 ^ (bits * (s + 1)) := by
        have hmul : 2 ^ (bits * (s + 1)) = 2 ^ (bits * s) * 2 ^ bits := by
          rw [Nat.mul_succ, pow_add]
        have hle : maskedVal bits v ≤ 2 ^ bits - 1 := by omega
        have h1 : maskedVal bits v * 2 ^ (bits * s) ≤ (2 ^ bits - 1) * 2 ^ (bits * s) :=
          Nat.mul_le_mul_right _ hle
        have h2 : (2 ^ bits - 1) * 2 ^ (bits * s)
            = 2 ^ bits * 2 ^ (bits * s) - 2 ^ (bits * s) := by
          rw [Nat.sub_mul, one_mul]
        have h3 : 2 ^ (bits * s) ≤ 2 ^ bits * 2 ^ (bits * s) :=
          Nat.le_mul_of_pos_left _ (Nat.two_pow_pos bits)
        have h4 : 2 ^ (bits * s) * 2 ^ bits = 2 ^ bits * 2 ^ (bits * s) := Nat.mul_comm _ _
        omega
      show List.foldl _ (acc ||| (((v % (2 ^ bits : ℤ)).toNat) <<< (bits * s)))
          (List.enumFrom (s + 1) rest) = _
      rw [hstep, ih (s + 1) _ hacc']
      rw [List.length_cons, Finset.sum_range_succ']
      simp only [List.getD_cons_succ, List.getD_cons_zero, Nat.add_zero]
      have hre : ∀ k, bits * (s + 1 + k) = bits * (s + (k + 1)) := by
        intro k
        ring_nf
      rw [Finset.sum_congr rfl (fun k _ => by rw [hre k])]
      omega

/-- A packed word is the weighted sum of its masked fields. -/
lemma packWord_eq_sum (bits : ℕ) (chunk : List ℤ) :
    packWord bits chunk = ∑ k ∈ Finset.range chunk.length,
      maskedVal bits (chunk.getD k 0) * 2 ^ (bits * k) := by
  have h := packWord_go bits chunk 0 0 (by positivity)
  rw [packWord]
  show (List.enumFrom 0 chunk).foldl _ 0 = _
  rw [h]
  simp

/-- Bound on a packed prefix: fields below `2^b` occupy fewer than `b*t` bits. -/
lemma sum_fields_lt (b : ℕ) (m : ℕ → ℕ) (hm : ∀ k, m k < 2 ^ b) (t : ℕ) :
    ∑ k ∈ Finset.range t, m k * 2 ^ (b * k) < 2 ^ (b * t) := by
  induction t with
  | zero => simp
  | succ u ih =>
      rw [Finset.sum_range_succ]
      have h1 : m u ≤ 2 ^ b - 1 := by
        have := hm u
        omega
      have h2 : m u * 2 ^ (b * u) ≤ (2 ^ b - 1) * 2 ^ (b * u) :=
        Nat.mul_le_mul_right _ h1
      have h3 : (2 ^ b - 1) * 2 ^ (b * u) = 2 ^ b * 2 ^ (b * u) - 2 ^ (b * u) := by
        rw [Nat.sub_mul, one_mul]
      have h4 : (2 : ℕ) ^ (b * (u + 1)) = 2 ^ b * 2 ^ (b * u) := by
        rw [← pow_add]
        congr 1
        ring
      have h5 : 2 ^ (b * u) ≤ 2 ^ b * 2 ^ (b * u) :=
        Nat.le_mul_of_pos_left _ (Nat.two_pow_pos b)
      omega

/-- Field extraction: shifting a packed word left to drop the higher
fields, reinterpreting as a signed 32-bit value and arithmetically shifting
right recovers field `e`, sign extended from `bits` bits. -/
lemma extract_field (bits : ℕ) (hb : 0 < bits) (hdvd : bits ∣ 32) (n e : ℕ)
    (m : ℕ → ℕ) (hm : ∀ k, m k < 2 ^ bits) (hn : n ≤ 32 / bits) (he : e < n) :
    (toSigned32 (((∑ k ∈ Finset.range n, m k * 2 ^ (bits * k))
        <<< (32 - bits * (e + 1))) % 2 ^ 32)).fdiv (2 ^ (32 - bits))
      = if m e < 2 ^ (bits - 1) then (m e : ℤ) else (m e : ℤ) - 2 ^ bits := by
  set s1 := 32 - bits * (e + 1) with hs1
  have hb32 : bits ≤ 32 := Nat.le_of_dvd (by norm_num) hdvd
  have hbound : bits * (e + 1) ≤ 32 := by
    calc bits * (e + 1) ≤ bits * n := Nat.mul_le_mul_left _ (by omega)
    _ ≤ bits * (32 / bits) := Nat.mul_le_mul_left _ hn
    _ = 32 := Nat.mul_div_cancel' hdvd
  have hmul : (∑ k ∈ Finset.range n, m k * 2 ^ (bits * k)) <<< s1
      = ∑ k ∈ Finset.range n, m k * 2 ^ (bits * k + s1) := by
    rw [Nat.shiftLeft_eq, Finset.sum_mul]
    exact Finset.sum_congr rfl (fun k _ => by rw [mul_assoc, ← pow_add])
  have hsplit : ∑ k ∈ Finset.range n, m k * 2 ^ (bits * k + s1)
      = (∑ k ∈ Finset.range (e + 1), m k * 2 ^ (bits * k + s1))
        + ∑ k ∈ Finset.Ico (e + 1) n, m k * 2 ^ (bits * k + s1) := by
    rw [Finset.range_eq_Ico,
      ← Finset.sum_Ico_consecutive _ (Nat.zero_le (e + 1)) (by omega : e + 1 ≤ n),
      ← Finset.range_eq_Ico]
  set P := ∑ k ∈ Finset.range (e + 1), m k * 2 ^ (bits * k + s1) with hPdef
  have hQ : (2 : ℕ) ^ 32 ∣ ∑ k ∈ Finset.Ico (e + 1) n, m k * 2 ^ (bits * k + s1) := by
    apply Finset.dvd_sum
    intro k hk
    have hk1 : e + 1 ≤ k := (Finset.mem_Ico.mp hk).1
    have hk2 : bits * (e + 1) ≤ bits * k := Nat.mul_le_mul_left _ hk1
    have h32 : 32 ≤ bits * k + s1 := by omega
    exact Dvd.dvd.mul_left (pow_dvd_pow 2 h32) _
  have hPsucc : P = (∑ k ∈ Finset.range e, m k * 2 ^ (bits * k + s1))
      + m e * 2 ^ (bits * e + s1) := Finset.sum_range_succ _ e
  set R := ∑ k ∈ Finset.range e, m k * 2 ^ (bits * k + s1) with hRdef
  have hes : bits * e + s1 = 32 - bits := by
    have h1 : bits * (e + 1) = bits * e + bits := by ring
    omega
  have hPR : P = R + m e * 2 ^ (32 - bits) := by
    rw [hPsucc, hes]
  have hRlt : R < 2 ^ (32 - bits) := by
    have hfac : R = (∑ k ∈ Finset.range e, m k * 2 ^ (bits * k)) * 2 ^ s1 := by
      rw [Finset.sum_mul]
      exact Finset.sum_congr rfl (fun k _ => by rw [mul_assoc, ← pow_add])
    rw [hfac]
    calc (∑ k ∈ Finset.range e, m k * 2 ^ (bits * k)) * 2 ^ s1
        < 2 ^ (bits * e) * 2 ^ s1 :=
          (Nat.mul_lt_mul_right (Nat.two_pow_pos s1)).mpr (sum_fields_lt bits m hm e)
    _ = 2 ^ (32 - bits) := by rw [← pow_add, hes]
  have hP32 : P < 2 ^ 32 := by
    have h1 : m e ≤ 2 ^ bits - 1 := by
      have := hm e
      omega
    have h2 : m e * 2 ^ (32 - bits) ≤ (2 ^ bits - 1) * 2 ^ (32 - bits) :=
      Nat.mul_le_mul_right _ h1
    have h3 : (2 ^ bits - 1) * 2 ^ (32 - bits)
        = 2 ^ bits * 2 ^ (32 - bits) - 2 ^ (32 - bits) := by
      rw [Nat.sub_mul, one_mul]
    have h4 : (2 : ℕ) ^ bits * 2 ^ (32 - bits) = 2 ^ 32 := by
      rw [← pow_add]
      congr 1
      omega
    have h5 : 2 ^ (32 - bits) ≤ 2 ^ bits * 2 ^ (32 - bits) :=
      Nat.le_mul_of_pos_left _ (Nat.two_pow_pos bits)
    omega
  have hmod : ((∑ k ∈ Finset.range n, m k * 2 ^ (bits * k)) <<< s1) % 2 ^ 32 = P := by
    rw [hmul, hsplit]
    obtain ⟨q, hq⟩ := hQ
    rw [hq, Nat.add_mul_mod_self_left]
    exact Nat.mod_eq_of_lt hP32
  rw [hmod]
  have hsplitpow : (2 : ℕ) ^ 31 = 2 ^ (bits - 1) * 2 ^ (32 - bits) := by
    rw [← pow_add]
    congr 1
    omega
  by_cases hcase : m e < 2 ^ (bits - 1)
  · have hPlt : P < 2 ^ 31 := by
      have h3 : P < (m e + 1) * 2 ^ (32 - bits) := by
        rw [Nat.add_mul, one_mul]
        omega
      calc P < (m e + 1) * 2 ^ (32 - bits) := h3
      _ ≤ 2 ^ (bits - 1) * 2 ^ (32 - bits) := Nat.mul_le_mul_right _ hcase
      _ = 2 ^ 31 := hsplitpow.symm
    rw [toSigned32, if_pos hPlt, if_pos hcase,
      Int.fdiv_eq_ediv _ (by positivity)]
    have hdiv : P / 2 ^ (32 - bits) = m e := by
      rw [hPR, Nat.add_mul_div_right _ _ (Nat.two_pow_pos _),
        Nat.div_eq_of_lt hRlt, Nat.zero_add]
    have hcast : ((2 ^ (32 - bits) : ℕ) : ℤ) = (2 : ℤ) ^ (32 - bits) := by
      push_cast
      rfl
    rw [← hcast, ← Int.natCast_div, hdiv]
  · push_neg at hcase
    have hPge : 2 ^ 31 ≤ P := by
      calc (2 : ℕ) ^ 31 = 2 ^ (bits - 1) * 2 ^ (32 - bits) := hsplitpow
      _ ≤ m e * 2 ^ (32 - bits) := Nat.mul_le_mul_right _ hcase
      _ ≤ P := by omega
    rw [toSigned32, if_neg (by omega), if_neg (by omega),
      Int.fdiv_eq_ediv _ (by positivity)]
    have h2 : (P : ℤ) = (R : ℤ) + (m e : ℤ) * 2 ^ (32 - bits) := by
      rw [hPR]
      push_cast
      ring
    have h232 : (2 : ℤ) ^ 32 = 2 ^ bits * 2 ^ (32 - bits) := by
      rw [← pow_add]
      congr 1
      omega
    have hz : (P : ℤ) - 2 ^ 32 = (R : ℤ) + ((m e : ℤ) - 2 ^ bits) * 2 ^ (32 - bits) := by
      rw [h2, h232]
      ring
    rw [hz, Int.add_mul_ediv_right _ _ (by positivity : (0:ℤ) < 2 ^ (32 - bits)).ne',
      Int.ediv_eq_zero_of_lt (by positivity) (by exact_mod_cast hRlt), zero_add]

lemma toInt8_eq_self (z : ℤ) (h1 : -128 ≤ z) (h2 : z < 128) : toInt8 z = z := by
  rw [toInt8, Int.emod_eq_of_lt (by omega) (by omega)]
  omega

/-- Unpacking a packed word recovers each field, sign extended from
`bits` bits. -/
lemma extractElem_packWord (bits : ℕ) (hb : 0 < bits) (hdvd : bits ∣ 32)
    (hb8 : bits ≤ 8) (chunk : List ℤ) (hlen : chunk.length ≤ 32 / bits)
    (e : ℕ) (he : e < chunk.length) :
    extractElem bits (packWord bits chunk) e
      = if maskedVal bits (chunk.getD e 0) < 2 ^ (bits - 1)
        then (maskedVal bits (chunk.getD e 0) : ℤ)
        else (maskedVal bits (chunk.getD e 0) : ℤ) - 2 ^ bits := by
  rw [extractElem, packWord_eq_sum bits chunk]
  rw [extract_field bits hb hdvd chunk.length e
    (fun k => maskedVal bits (chunk.getD k 0))
    (fun k => maskedVal_lt bits _) hlen he]
  have hmv := maskedVal_lt bits (chunk.getD e 0)
  have hN1 : (2 : ℕ) ^ bits ≤ 256 := by
    calc (2 : ℕ) ^ bits ≤ 2 ^ 8 := Nat.pow_le_pow_right (by norm_num) hb8
    _ = 256 := by norm_num
  have hN2 : (2 : ℕ) ^ (bits - 1) * 2 = 2 ^ bits := by
    rw [← pow_succ]
    congr 1
    omega
  by_cases hc : maskedVal bits (chunk.getD e 0) < 2 ^ (bits - 1)
  · rw [if_pos hc]
    apply toInt8_eq_self
    · have : (0 : ℤ) ≤ (maskedVal bits (chunk.getD e 0) : ℤ) := Int.ofNat_nonneg _
      omega
    · have h1 : maskedVal bits (chunk.getD e 0) < 128 := by omega
      exact_mod_cast h1
  · rw [if_neg hc]
    push_neg at hc
    apply toInt8_eq_self
    · have h1 : (2 ^ (bits - 1) : ℤ) ≤ (maskedVal bits (chunk.getD e 0) : ℤ) := by
        exact_mod_cast hc
      have h2 : ((2 : ℤ) ^ (bits - 1)) * 2 = 2 ^ bits := by exact_mod_cast hN2
      have h3 : (2 : ℤ) ^ bits ≤ 256 := by exact_mod_cast hN1
      omega
    · have h1 : (maskedVal bits (chunk.getD e 0) : ℤ) < 2 ^ bits := by
        exact_mod_cast hmv
      omega

/-- Masking then sign extending is the identity on the signed `bits`-bit
range. -/
lemma sext_maskedVal_eq_self (bits : ℕ) (hb : 0 < bits) (v : ℤ)
    (h1 : -(2 ^ (bits - 1)) ≤ v) (h2 : v < 2 ^ (bits - 1)) :
    (if maskedVal bits v < 2 ^ (bits - 1) then (maskedVal bits v : ℤ)
     else (maskedVal bits v : ℤ) - 2 ^ bits) = v := by
  have hpow : (2 : ℤ) ^ bits = 2 ^ (bits - 1) * 2 := by
    conv_lhs => rw [show bits = (bits - 1) + 1 by omega]
    rw [pow_succ]
  have hX : (0 : ℤ) < 2 ^ (bits - 1) := by positivity
  have hcastpow : ((2 ^ (bits - 1) : ℕ) : ℤ) = (2 : ℤ) ^ (bits - 1) := by
    push_cast
    rfl
  by_cases hv : 0 ≤ v
  · have hlt : v < (2 : ℤ) ^ bits := by omega
    have hmod : v % ((2 : ℤ) ^ bits) = v := Int.emod_eq_of_lt hv hlt
    have hmv : maskedVal bits v = v.toNat := by rw [maskedVal, hmod]
    have hcond : maskedVal bits v < 2 ^ (bits - 1) := by
      rw [hmv]
      omega
    rw [if_pos hcond, hmv, Int.toNat_of_nonneg hv]
  · push_neg at hv
    have hrange1 : (0 : ℤ) ≤ v + 2 ^ bits := by omega
    have hrange2 : v + 2 ^ bits < 2 ^ bits := by omega
    have hmod : v % ((2 : ℤ) ^ bits) = v + 2 ^ bits := by
      have ha : (v + 2 ^ bits * 1) % (2 ^ bits) = v % (2 ^ bits) :=
        Int.add_mul_emod_self_left v (2 ^ bits) 1
      rw [mul_one] at ha
      rw [← ha, Int.emod_eq_of_lt hrange1 hrange2]
    have hmv : maskedVal bits v = (v + 2 ^ bits).toNat := by rw [maskedVal, hmod]
    have hge : (2 : ℤ) ^ (bits - 1) ≤ v + 2 ^ bits := by omega
    have hcond : ¬ maskedVal bits v < 2 ^ (bits - 1) := by
      rw [hmv]
      omega
    rw [if_neg hcond, hmv, Int.toNat_of_nonneg hrange1]
    ring

/-- getD commutes with map when the default is mapped too. -/
lemma getD_map {α β : Type} (f : α → β) (l : List α) (j : ℕ) (d : α) :
    (l.map f).getD j (f d) = f (l.getD j d) := by
  rcases lt_or_ge j l.length with h | h
  · rw [List.getD_eq_getElem _ _ (by simpa using h), List.getD_eq_getElem _ _ h,
      List.getElem_map]
  · rw [List.getD_eq_default _ _ (by simpa using h), List.getD_eq_default _ _ h]

/-- Every chunk has length at most the chunk size. -/
lemma chunkBy_length_le {α : Type} (n : ℕ) (hn : 0 < n) :
    ∀ (fuel : ℕ) (l : List α), l.length ≤ fuel →
      ∀ c ∈ chunkBy n l, c.length ≤ n := by
  intro fuel
  induction fuel with
  | zero =>
      intro l hl c hc
      have : l = [] := List.eq_nil_of_length_eq_zero (by omega)
      subst this
      rw [chunkBy_nil] at hc
      simp at hc
  | succ f ih =>
      intro l hl c hc
      by_cases hne : l = []
      · subst hne
        rw [chunkBy_nil] at hc
        simp at hc
      · rw [chunkBy_ne_nil_cons n hn l hne] at hc
        rcases List.mem_cons.mp hc with rfl | hc'
        · simp
        · exact ih (l.drop n) (by simp; omega) c hc'

lemma packRow_nil (bits : ℕ) : packRow bits [] = [] := by
  simp [packRow, chunkBy_nil]

lemma packWord_nil (bits : ℕ) : packWord bits [] = 0 := rfl

/-- Unpacking the packed weight buffer recovers the quantized matrix
whenever every entry lies in the signed `bits`-bit range. -/
lemma unpackedWeight_packMatrix (bits : ℕ) (hb : 0 < bits) (hdvd : bits ∣ 32)
    (hb8 : bits ≤ 8) (q : List (List ℤ)) (inF : ℕ)
    (hq : ∀ row ∈ q, row.length = inF)
    (hvals : ∀ row ∈ q, ∀ v ∈ row, -(2 ^ (bits - 1)) ≤ v ∧ v < 2 ^ (bits - 1)) :
    unpackedWeight bits q.length inF (packMatrix bits q) = q := by
  apply List.ext_getElem
  · simp [unpackedWeight]
  intro r h1 h2
  simp only [unpackedWeight, List.getElem_map, List.getElem_range]
  have hrowmem : q[r] ∈ q := List.getElem_mem h2
  have hrowlen : q[r].length = inF := hq _ hrowmem
  apply List.ext_getElem
  · simp [hrowlen]
  intro idx hidx1 hidx2
  simp only [List.getElem_map, List.getElem_range]
  -- reduce the packed lookup to the packed row of row r
  have hgetrow : (packMatrix bits q).getD r [] = packRow bits q[r] := by
    rw [packMatrix, ← packRow_nil bits, getD_map, List.getD_eq_getElem _ _ h2]
  rw [hgetrow]
  have hgetword : ∀ j, (packRow bits q[r]).getD j 0
      = packWord bits ((chunkBy (32 / bits) q[r]).getD j []) := by
    intro j
    rw [packRow, ← packWord_nil bits, getD_map]
  rw [hgetword]
  -- the chunk containing index idx
  have hidxrow : idx < q[r].length := hidx2
  obtain ⟨hlen1, hval1⟩ := chunkBy_getD (32 / bits)
    (Nat.div_pos (Nat.le_of_dvd (by norm_num) hdvd) hb) (0 : ℤ)
    q[r].length q[r] le_rfl idx hidxrow
  have hchunkmem : (chunkBy (32 / bits) q[r]).getD (idx / (32 / bits)) []
      ∈ chunkBy (32 / bits) q[r] := by
    rcases lt_or_ge (idx / (32 / bits)) (chunkBy (32 / bits) q[r]).length with h | h
    · rw [List.getD_eq_getElem _ _ h]
      exact List.getElem_mem h
    · rw [List.getD_eq_default _ _ h] at hlen1
      simp at hlen1
  have hchunklen : ((chunkBy (32 / bits) q[r]).getD (idx / (32 / bits)) []).length
      ≤ 32 / bits :=
    chunkBy_length_le (32 / bits)
      (Nat.div_pos (Nat.le_of_dvd (by norm_num) hdvd) hb)
      q[r].length q[r] le_rfl _ hchunkmem
  rw [extractElem_packWord bits hb hdvd hb8 _ hchunklen _ hlen1, hval1]
  have hvmem : q[r].getD idx 0 ∈ q[r] := by
    rw [List.getD_eq_getElem _ _ hidxrow]
    exact List.getElem_mem hidxrow
  obtain ⟨hv1, hv2⟩ := hvals _ hrowmem _ hvmem
  rw [sext_maskedVal_eq_self bits hb _ hv1 hv2, List.getD_eq_getElem _ _ hidxrow]

lemma flatten_map_singleton {α : Type} (s : List α) :
    (s.map (fun x => [x])).flatten = s := by
  induction s with
  | nil => simp
  | cons x xs ih => simp [ih]

lemma clampZ_bounds (x lo hi : ℤ) (h : lo ≤ hi) :
    lo ≤ clampZ x lo hi ∧ clampZ x lo hi ≤ hi := by
  unfold clampZ
  exact ⟨le_min (le_max_right x lo) h, min_le_right _ _⟩

/-! Claim C1: pack/recover round trip. -/

/-- C1, amended (positive part): for the symmetric scheme, packing the
integer-quantized weights with their per-row scales into the store
(`group_size = -1`, so the store's group size is `in_features`;
`compression_dtype = torch.int32`, `compression_dim = 1`) and recovering
yields exactly the directly dequantized matrix `scale * q`, for every
supported bit width in `{2, 4, 8}`. -/
theorem c1_sym_round_trip (w : List (List ℚ)) (numBits : ℕ) (quantile : ℚ)
    (fullRange : Bool) (inF : ℕ)
    (hbits : numBits = 2 ∨ numBits = 4 ∨ numBits = 8)
    (hrect : ∀ row ∈ w, row.length = inF) (hinF : 0 < inF) :
    wolRecover numBits w.length inF inF
        (packMatrix numBits (qdq_weight_sym_int w numBits quantile fullRange).1)
        ((qdq_weight_sym_int w numBits quantile fullRange).2.map (fun x => [x]))
      = qdq_weight_sym w numBits quantile fullRange := by
  have hb : 0 < numBits := by rcases hbits with rfl | rfl | rfl <;> norm_num
  have hdvd : numBits ∣ 32 := by rcases hbits with rfl | rfl | rfl <;> norm_num
  have hb8 : numBits ≤ 8 := by rcases hbits with rfl | rfl | rfl <;> norm_num
  have hb2 : 2 ≤ numBits := by rcases hbits with rfl | rfl | rfl <;> norm_num
  have hqw : (qdq_weight_sym_int w numBits quantile fullRange).1
      = w.map (fun row => symQRow row numBits quantile fullRange) := rfl
  have hsw : (qdq_weight_sym_int w numBits quantile fullRange).2
      = w.map (fun row => symScale row numBits quantile fullRange) := rfl
  set q := (qdq_weight_sym_int w numBits quantile fullRange).1 with hqdef
  set s := (qdq_weight_sym_int w numBits quantile fullRange).2 with hsdef
  have hqlen : ∀ row ∈ q, row.length = inF := by
    intro row hrow
    rw [hqw] at hrow
    obtain ⟨r0, hr0, rfl⟩ := List.mem_map.mp hrow
    simpa [symQRow] using hrect r0 hr0
  have hB := symBounds_of_two_le numBits hb2
  have hB1 : (symBounds numBits).1 = -(2 ^ (numBits - 1)) := by rw [hB]
  have hB2 : (symBounds numBits).2 = 2 ^ (numBits - 1) - 1 := by rw [hB]
  have hpow : (0 : ℤ) < 2 ^ (numBits - 1) := by positivity
  have hvals : ∀ row ∈ q, ∀ v ∈ row,
      -(2 ^ (numBits - 1)) ≤ v ∧ v < 2 ^ (numBits - 1) := by
    intro row hrow v hv
    rw [hqw] at hrow
    obtain ⟨r0, hr0, rfl⟩ := List.mem_map.mp hrow
    simp only [symQRow] at hv
    obtain ⟨x, hx, rfl⟩ := List.mem_map.mp hv
    rw [hB1, hB2]
    have hbounds := clampZ_bounds
      (rnd (x / symScale r0 numBits quantile fullRange))
      (-(2 ^ (numBits - 1))) (2 ^ (numBits - 1) - 1) (by omega)
    omega
  have hqlenw : q.length = w.length := by
    rw [hqw]
    simp
  rw [wolRecover, ← hqlenw,
    unpackedWeight_packMatrix numBits hb hdvd hb8 q inF hqlen hvals]
  have hcond : ¬ (inF % inF ≠ 0) := by simp
  rw [recoverDequant, if_neg hcond, flatten_map_singleton,
    chunkBy_flatten_of_rect inF hinF q hqlen]
  rw [reshapeW, chunkBy_flatten_of_rect inF hinF _ (by
    intro row hrow
    obtain ⟨p, hp, rfl⟩ := List.mem_map.mp hrow
    simpa using hqlen p.1 (List.of_mem_zip hp).1)]
  rw [hqw, hsw, List.zip_map', qdq_weight_sym, List.map_map]
  apply List.map_congr_left
  intro row hrow
  simp only [Function.comp]
  apply List.map_congr_left
  intro v hv
  ring

/-- C1, counterexample: the round trip fails for the asymmetric scheme.
For the 1x1 weight `[[1]]` with 2 bits, direct dequantization gives
`scale * (q - zp) = (1/3) * (3 - 0) = 1`, but `recover()` ignores the
zero-point entirely and sign extends the unsigned code `3` to `-1`, so the
store returns `-1/3`. -/
theorem c1_counterexample :
    qdq_weight_asym [[(1 : ℚ)]] 2 1 = [[(1 : ℚ)]] ∧
    wolRecover 2 1 1 1
        (packMatrix 2 (qdq_weight_asym_int [[(1 : ℚ)]] 2 1).1)
        ((qdq_weight_asym_int [[(1 : ℚ)]] 2 1).2.1.map (fun x => [x]))
      = [[-(1/3 : ℚ)]] ∧
    ¬ ([[-(1/3 : ℚ)]] : List (List ℚ)) = [[(1 : ℚ)]] := by
  have hparams : asymParams [(1 : ℚ)] 2 1 = (1/3, 0) := by
    rw [asymParams]
    norm_num [rowMin, rowMax, rnd]
  have hq : asymQRow [(1 : ℚ)] 2 1 = [3] := by
    rw [asymQRow, hparams]
    norm_num [clampZ, rnd]
  have hint1 : (qdq_weight_asym_int [[(1 : ℚ)]] 2 1).1 = [[3]] := by
    simp [qdq_weight_asym_int, hq]
  have hint2 : (qdq_weight_asym_int [[(1 : ℚ)]] 2 1).2.1 = [1/3] := by
    simp [qdq_weight_asym_int, hparams]
  have hpack : packMatrix 2 [[(3 : ℤ)]] = [[3]] := by decide
  have hunp : unpackedWeight 2 1 1 [[3]] = [[-1]] := by decide
  refine ⟨?_, ?_, by norm_num⟩
  · simp [qdq_weight_asym, hparams, hq]
  · rw [hint1, hint2, hpack, wolRecover, hunp]
    norm_num [recoverDequant, reshapeW, chunkBy, chunksGo]

/-- C1, witness for the amended round-trip theorem at `w = [[1, -2]]`,
4 bits, quantile 1, no full range. -/
theorem c1_witness :
    ((4 : ℕ) = 2 ∨ (4 : ℕ) = 4 ∨ (4 : ℕ) = 8) ∧
    (∀ row ∈ [[(1 : ℚ), -2]], row.length = 2) ∧ 0 < 2 ∧
    wolRecover 4 1 2 2
        (packMatrix 4 (qdq_weight_sym_int [[(1 : ℚ), -2]] 4 1 false).1)
        ((qdq_weight_sym_int [[(1 : ℚ), -2]] 4 1 false).2.map (fun x => [x]))
      = qdq_weight_sym [[(1 : ℚ), -2]] 4 1 false :=
  ⟨by norm_num, by simp, by norm_num,
   c1_sym_round_trip [[(1 : ℚ), -2]] 4 1 false 2 (by norm_num) (by simp)
     (by norm_num)⟩

/-! Claim C9: shape lemmas for the remainder-group path. -/

lemma length_flatten_rect {α : Type} (m : List (List α)) (c : ℕ)
    (h : ∀ r ∈ m, r.length = c) : m.flatten.length = m.length * c := by
  induction m with
  | nil => simp
  | cons r rs ih =>
      have hr : r.length = c := h r (by simp)
      have hrs := ih (fun x hx => h x (by simp [hx]))
      simp only [List.flatten_cons, List.length_append, List.length_cons, hr, hrs]
      rw [Nat.succ_mul, Nat.add_comm]

/-- The integer actor preserves the row count and every row length, and
produces one scale per row. -/
lemma qdq_weight_actor_int_shapes (w : List (List ℚ)) (numBits : ℤ)
    (scheme : Scheme) (quantile : ℚ) (dt : DType) (fullRange : Bool) (c : ℕ)
    (hw : ∀ r ∈ w, r.length = c) :
    (qdq_weight_actor_int w numBits scheme quantile dt fullRange).1.length
        = w.length ∧
    (∀ r ∈ (qdq_weight_actor_int w numBits scheme quantile dt fullRange).1,
        r.length = c) ∧
    (qdq_weight_actor_int w numBits scheme quantile dt fullRange).2.1.length
        = w.length := by
  by_cases h4 : dt ≠ DType.int ∧ numBits = 4
  · refine ⟨by simp [qdq_weight_actor_int, h4, quantize_4bit_int], ?_,
      by simp [qdq_weight_actor_int, h4, quantize_4bit_int]⟩
    intro r hr
    simp only [qdq_weight_actor_int, if_pos h4, quantize_4bit_int] at hr
    obtain ⟨row, hrow, rfl⟩ := List.mem_map.mp hr
    simpa using hw row hrow
  · by_cases hs : scheme = Scheme.sym
    · refine ⟨by simp [qdq_weight_actor_int, h4, hs, qdq_weight_sym_int], ?_,
        by simp [qdq_weight_actor_int, h4, hs, qdq_weight_sym_int]⟩
      intro r hr
      simp only [qdq_weight_actor_int, if_neg h4, if_pos hs,
        qdq_weight_sym_int] at hr
      obtain ⟨row, hrow, rfl⟩ := List.mem_map.mp hr
      simpa [symQRow] using hw row hrow
    · refine ⟨by simp [qdq_weight_actor_int, h4, hs, qdq_weight_asym_int], ?_,
        by simp [qdq_weight_actor_int, h4, hs, qdq_weight_asym_int]⟩
      intro r hr
      simp only [qdq_weight_actor_int, if_neg h4, if_neg hs,
        qdq_weight_asym_int] at hr
      obtain ⟨row, hrow, rfl⟩ := List.mem_map.mp hr
      simpa [asymQRow] using hw row hrow

/-- For the uniform integer tag the zero-point output is `none` for the
symmetric scheme and a per-row list for the asymmetric scheme. -/
lemma qdq_weight_actor_int_zp (w : List (List ℚ)) (numBits : ℤ)
    (quantile : ℚ) (fullRange : Bool) :
    (qdq_weight_actor_int w numBits Scheme.sym quantile DType.int fullRange).2.2
        = none ∧
    ∃ l, (qdq_weight_actor_int w numBits Scheme.asym quantile DType.int
          fullRange).2.2 = some l ∧ l.length = w.length := by
  constructor
  · simp [qdq_weight_actor_int]
  · refine ⟨w.map (fun row => (asymParams row numBits.toNat quantile).2), ?_, by simp⟩
    simp [qdq_weight_actor_int, qdq_weight_asym_int]

lemma shape_zip_append {α : Type} (m1 m2 : List (List α)) (c1 c2 : ℕ)
    (h1 : ∀ r ∈ m1, r.length = c1) (h2 : ∀ r ∈ m2, r.length = c2) :
    ((m1.zip m2).map (fun p => p.1 ++ p.2)).length = min m1.length m2.length ∧
    ∀ r ∈ (m1.zip m2).map (fun p => p.1 ++ p.2), r.length = c1 + c2 := by
  constructor
  · simp
  · intro r hr
    obtain ⟨p, hp, rfl⟩ := List.mem_map.mp hr
    obtain ⟨hp1, hp2⟩ := List.of_mem_zip hp
    simp [h1 p.1 hp1, h2 p.2 hp2]

lemma shape_zip_map_fst {α β γ : Type} (m : List (List α)) (s : List β)
    (g : List α × β → List γ) (hg : ∀ p, (g p).length = p.1.length) (c : ℕ)
    (hc : ∀ r ∈ m, r.length = c) :
    ((m.zip s).map g).length = min m.length s.length ∧
    ∀ r ∈ (m.zip s).map g, r.length = c := by
  constructor
  · simp
  · intro r hr
    obtain ⟨p, hp, rfl⟩ := List.mem_map.mp hr
    rw [hg p]
    exact hc p.1 (List.of_mem_zip hp).1

lemma cols_of_rect (w : List (List ℚ)) (c : ℕ) (hne : w ≠ [])
    (hrect : ∀ row ∈ w, row.length = c) : cols w = c := by
  cases w with
  | nil => exact absurd rfl hne
  | cons r rs => exact hrect r (by simp)

lemma reshapeW_eq_chunkBy {α : Type} (c : ℕ) (l : List α) :
    reshapeW c l = chunkBy c l := rfl

/-- C9: with `in_features = 33` and `group_size = 32` each row splits into
a full group of 32 and a remainder group of 1: the quantized matrix has the
input shape `(rows, 33)`, the scale matrix has shape `(rows, 2)` (the
remainder group owns the last parameter column), the asymmetric zero-point
matrix likewise has shape `(rows, 2)`, and `recover()` on such a store
returns a matrix of shape `(out_features, 33)`. -/
theorem c9_group_boundary (w : List (List ℚ)) (numBits : ℤ) (scheme : Scheme)
    (quantile : ℚ) (fullRange : Bool) (outF bits2 : ℕ)
    (packed : List (List ℕ)) (scaleM : List (List ℚ))
    (hne : w ≠ []) (hrect : ∀ row ∈ w, row.length = 33)
    (hscale : scaleM.length = outF) (hscalerow : ∀ r ∈ scaleM, r.length = 2) :
    ((quant_weight_int w numBits 32 scheme quantile DType.int fullRange).1.length
        = w.length ∧
      ∀ r ∈ (quant_weight_int w numBits 32 scheme quantile DType.int fullRange).1,
        r.length = 33) ∧
    ((quant_weight_int w numBits 32 scheme quantile DType.int fullRange).2.1.length
        = w.length ∧
      ∀ r ∈ (quant_weight_int w numBits 32 scheme quantile DType.int fullRange).2.1,
        r.length = 2) ∧
    (∃ l, (quant_weight_int w numBits 32 Scheme.asym quantile DType.int
          fullRange).2.2 = some l ∧ l.length = w.length ∧
        ∀ r ∈ l, r.length = 2) ∧
    ((wolRecover bits2 outF 33 32 packed scaleM).length = outF ∧
      ∀ r ∈ wolRecover bits2 outF 33 32 packed scaleM, r.length = 33) := by
  have hcols := cols_of_rect w 33 hne hrect
  have hwpos : 0 < w.length := by
    cases w with
    | nil => exact absurd rfl hne
    | cons r rs => simp
  have hunfold : ∀ sch, quant_weight_int w numBits 32 sch quantile DType.int fullRange
      = (((reshapeW 32 ((qdq_weight_actor_int
              (chunkBy 32 ((w.map (fun r => r.take 32)).flatten))
              numBits sch quantile DType.int fullRange).1.flatten)).zip
            (qdq_weight_actor_int (w.map (fun r => r.drop 32))
              numBits sch quantile DType.int fullRange).1).map
          (fun p => p.1 ++ p.2),
        ((reshapeW ((qdq_weight_actor_int
              (chunkBy 32 ((w.map (fun r => r.take 32)).flatten))
              numBits sch quantile DType.int fullRange).2.1.length / w.length)
            (qdq_weight_actor_int
              (chunkBy 32 ((w.map (fun r => r.take 32)).flatten))
              numBits sch quantile DType.int fullRange).2.1).zip
          ((qdq_weight_actor_int (w.map (fun r => r.drop 32))
              numBits sch quantile DType.int fullRange).2.1.map (fun x => [x]))).map
          (fun p => p.1 ++ p.2),
        match (qdq_weight_actor_int
              (chunkBy 32 ((w.map (fun r => r.take 32)).flatten))
              numBits sch quantile DType.int fullRange).2.2,
            (qdq_weight_actor_int (w.map (fun r => r.drop 32))
              numBits sch quantile DType.int fullRange).2.2 with
        | some l1, some l2 =>
            some (((reshapeW (l1.length / w.length) l1).zip
              (l2.map (fun x => [x]))).map (fun p => p.1 ++ p.2))
        | _, _ => none) := by
    intro sch
    simp only [quant_weight_int, hcols, show Int.toNat 32 = 32 from rfl]
    norm_num
  have htakerows : ∀ r ∈ w.map (fun r => r.take 32), r.length = 32 := by
    intro r hr
    obtain ⟨row, hrow, rfl⟩ := List.mem_map.mp hr
    simp [hrect row hrow]
  have htflen : ((w.map (fun r => r.take 32)).flatten).length = w.length * 32 := by
    rw [length_flatten_rect _ 32 htakerows, List.length_map]
  obtain ⟨hm1len, hm1rows⟩ := chunkBy_spec_of_mul 32 (by norm_num) w.length _ htflen
  have hdroprows : ∀ r ∈ w.map (fun r => r.drop 32), r.length = 1 := by
    intro r hr
    obtain ⟨row, hrow, rfl⟩ := List.mem_map.mp hr
    simp [hrect row hrow]
  have hqshape : ∀ sch,
      (quant_weight_int w numBits 32 sch quantile DType.int fullRange).1.length
          = w.length ∧
      (∀ r ∈ (quant_weight_int w numBits 32 sch quantile DType.int fullRange).1,
          r.length = 33) ∧
      (quant_weight_int w numBits 32 sch quantile DType.int fullRange).2.1.length
          = w.length ∧
      (∀ r ∈ (quant_weight_int w numBits 32 sch quantile DType.int fullRange).2.1,
          r.length = 2) := by
    intro sch
    obtain ⟨hq1len, hq1rows, hs1len⟩ := qdq_weight_actor_int_shapes
      (chunkBy 32 ((w.map (fun r => r.take 32)).flatten)) numBits sch quantile
      DType.int fullRange 32 hm1rows
    obtain ⟨hq2len, hq2rows, hs2len⟩ := qdq_weight_actor_int_shapes
      (w.map (fun r => r.drop 32)) numBits sch quantile DType.int fullRange 1
      hdroprows
    have hq1len' : (qdq_weight_actor_int
        (chunkBy 32 ((w.map (fun r => r.take 32)).flatten))
        numBits sch quantile DType.int fullRange).1.length = w.length := by
      rw [hq1len, hm1len]
    have hq2len' : (qdq_weight_actor_int (w.map (fun r => r.drop 32))
        numBits sch quantile DType.int fullRange).1.length = w.length := by
      rw [hq2len, List.length_map]
    have hq1flat : ((qdq_weight_actor_int
        (chunkBy 32 ((w.map (fun r => r.take 32)).flatten))
        numBits sch quantile DType.int fullRange).1.flatten).length
          = w.length * 32 := by
      rw [length_flatten_rect _ 32 hq1rows, hq1len']
    obtain ⟨hrq1len, hrq1rows⟩ := chunkBy_spec_of_mul 32 (by norm_num)
      w.length _ hq1flat
    have hs1len' : (qdq_weight_actor_int
        (chunkBy 32 ((w.map (fun r => r.take 32)).flatten))
        numBits sch quantile DType.int fullRange).2.1.length = w.length := by
      rw [hs1len, hm1len]
    have hs2len' : (qdq_weight_actor_int (w.map (fun r => r.drop 32))
        numBits sch quantile DType.int fullRange).2.1.length = w.length := by
      rw [hs2len, List.length_map]
    have hdiv1 : (qdq_weight_actor_int
        (chunkBy 32 ((w.map (fun r => r.take 32)).flatten))
        numBits sch quantile DType.int fullRange).2.1.length / w.length = 1 := by
      rw [hs1len']
      exact Nat.div_self hwpos
    obtain ⟨hrs1len, hrs1rows⟩ := chunkBy_spec_of_mul 1 (by norm_num) w.length
      (qdq_weight_actor_int
        (chunkBy 32 ((w.map (fun r => r.take 32)).flatten))
        numBits sch quantile DType.int fullRange).2.1 (by rw [hs1len', Nat.mul_one])
    obtain ⟨hzl, hzr⟩ := shape_zip_append
      (reshapeW 32 ((qdq_weight_actor_int
        (chunkBy 32 ((w.map (fun r => r.take 32)).flatten))
        numBits sch quantile DType.int fullRange).1.flatten))
      ((qdq_weight_actor_int (w.map (fun r => r.drop 32))
        numBits sch quantile DType.int fullRange).1) 32 1
      (by rw [reshapeW_eq_chunkBy]; exact hrq1rows) hq2rows
    obtain ⟨hsl, hsr⟩ := shape_zip_append
      (reshapeW ((qdq_weight_actor_int
          (chunkBy 32 ((w.map (fun r => r.take 32)).flatten))
          numBits sch quantile DType.int fullRange).2.1.length / w.length)
        (qdq_weight_actor_int
          (chunkBy 32 ((w.map (fun r => r.take 32)).flatten))
          numBits sch quantile DType.int fullRange).2.1)
      ((qdq_weight_actor_int (w.map (fun r => r.drop 32))
          numBits sch quantile DType.int fullRange).2.1.map (fun x => [x])) 1 1
      (by
        rw [hdiv1, reshapeW_eq_chunkBy]
        exact hrs1rows)
      (by
        intro r hr
        obtain ⟨x, hx, rfl⟩ := List.mem_map.mp hr
        simp)
    refine ⟨?_, ?_, ?_, ?_⟩
    · rw [hunfold sch, hzl, reshapeW_eq_chunkBy, hrq1len, hq2len', Nat.min_self]
    · rw [hunfold sch]
      exact hzr
    · rw [hunfold sch, hsl, hdiv1, reshapeW_eq_chunkBy, hrs1len,
        List.length_map, hs2len', Nat.min_self]
    · rw [hunfold sch]
      exact hsr
  refine ⟨⟨(hqshape scheme).1, (hqshape scheme).2.1⟩,
    ⟨(hqshape scheme).2.2.1, (hqshape scheme).2.2.2⟩, ?_, ?_⟩
  · -- asymmetric zero point
    obtain ⟨_, l1, hl1, hl1len⟩ := qdq_weight_actor_int_zp
      (chunkBy 32 ((w.map (fun r => r.take 32)).flatten)) numBits quantile fullRange
    obtain ⟨_, l2, hl2, hl2len⟩ := qdq_weight_actor_int_zp
      (w.map (fun r => r.drop 32)) numBits quantile fullRange
    have hl1len' : l1.length = w.length := by rw [hl1len, hm1len]
    have hl2len' : l2.length = w.length := by rw [hl2len, List.length_map]
    have hdivz : l1.length / w.length = 1 := by
      rw [hl1len']
      exact Nat.div_self hwpos
    obtain ⟨hrzlen, hrzrows⟩ := chunkBy_spec_of_mul 1 (by norm_num) w.length l1
      (by rw [hl1len', Nat.mul_one])
    obtain ⟨hzpl, hzpr⟩ := shape_zip_append
      (reshapeW (l1.length / w.length) l1) (l2.map (fun x => [x])) 1 1
      (by
        rw [hdivz, reshapeW_eq_chunkBy]
        exact hrzrows)
      (by
        intro r hr
        obtain ⟨x, hx, rfl⟩ := List.mem_map.mp hr
        simp)
    refine ⟨((reshapeW (l1.length / w.length) l1).zip
        (l2.map (fun x => [x]))).map (fun p => p.1 ++ p.2), ?_, ?_, ?_⟩
    · rw [hunfold Scheme.asym, hl1, hl2]
    · rw [hzpl, hdivz, reshapeW_eq_chunkBy, hrzlen, List.length_map, hl2len',
        Nat.min_self]
    · exact hzpr
  · -- recover shape
    have hunp1 : (unpackedWeight bits2 outF 33 packed).length = outF := by
      simp [unpackedWeight]
    have hunp2 : ∀ r ∈ unpackedWeight bits2 outF 33 packed, r.length = 33 := by
      intro r hr
      simp only [unpackedWeight] at hr
      obtain ⟨i, hi, rfl⟩ := List.mem_map.mp hr
      simp
    have hrecunfold : wolRecover bits2 outF 33 32 packed scaleM
        = ((reshapeW 32 ((((chunkBy 32
              (((unpackedWeight bits2 outF 33 packed).map (fun r => r.take 32)).flatten)).zip
              ((scaleM.map (fun r => r.dropLast)).flatten)).map
              (fun p => p.1.map (fun (v : ℤ) => (v : ℚ) * p.2))).flatten)).zip
            ((((unpackedWeight bits2 outF 33 packed).map (fun r => r.drop 32)).zip
              (scaleM.map (fun r => r.drop (r.length - 1)))).map
              (fun p => p.1.map (fun (v : ℤ) => (v : ℚ) * (p.2.getD 0 0))))).map
          (fun p => p.1 ++ p.2) := by
      rw [wolRecover]
      simp only [recoverDequant]
      norm_num [reshapeW_eq_chunkBy]
    have htkrows : ∀ r ∈ (unpackedWeight bits2 outF 33 packed).map (fun r => r.take 32),
        r.length = 32 := by
      intro r hr
      obtain ⟨row, hrow, rfl⟩ := List.mem_map.mp hr
      simp [hunp2 row hrow]
    have htkflen : (((unpackedWeight bits2 outF 33 packed).map
        (fun r => r.take 32)).flatten).length = outF * 32 := by
      rw [length_flatten_rect _ 32 htkrows, List.length_map, hunp1]
    obtain ⟨hw1len, hw1rows⟩ := chunkBy_spec_of_mul 32 (by norm_num) outF _ htkflen
    have hsc1len : ((scaleM.map (fun r => r.dropLast)).flatten).length = outF := by
      have : ∀ r ∈ scaleM.map (fun r => r.dropLast), r.length = 1 := by
        intro r hr
        obtain ⟨row, hrow, rfl⟩ := List.mem_map.mp hr
        simp [hscalerow row hrow]
      rw [length_flatten_rect _ 1 this, List.length_map, hscale, Nat.mul_one]
    obtain ⟨hmul1len, hmul1rows⟩ := shape_zip_map_fst
      (chunkBy 32 (((unpackedWeight bits2 outF 33 packed).map
        (fun r => r.take 32)).flatten))
      ((scaleM.map (fun r => r.dropLast)).flatten)
      (fun p => p.1.map (fun (v : ℤ) => (v : ℚ) * p.2)) (by intro p; simp) 32 hw1rows
    have hmul1len' : ((((chunkBy 32
        (((unpackedWeight bits2 outF 33 packed).map (fun r => r.take 32)).flatten)).zip
        ((scaleM.map (fun r => r.dropLast)).flatten)).map
        (fun p => p.1.map (fun (v : ℤ) => (v : ℚ) * p.2))).flatten).length
          = outF * 32 := by
      rw [length_flatten_rect _ 32 hmul1rows, hmul1len, hw1len, hsc1len, Nat.min_self]
    obtain ⟨hro1len, hro1rows⟩ := chunkBy_spec_of_mul 32 (by norm_num) outF _ hmul1len'
    obtain ⟨hmul2len, hmul2rows⟩ := shape_zip_map_fst
      ((unpackedWeight bits2 outF 33 packed).map (fun r => r.drop 32))
      (scaleM.map (fun r => r.drop (r.length - 1)))
      (fun p => p.1.map (fun (v : ℤ) => (v : ℚ) * (p.2.getD 0 0))) (by intro p; simp) 1
      (by
        intro r hr
        obtain ⟨row, hrow, rfl⟩ := List.mem_map.mp hr
        simp [hunp2 row hrow])
    obtain ⟨hfl, hfr⟩ := shape_zip_append
      (reshapeW 32 ((((chunkBy 32
          (((unpackedWeight bits2 outF 33 packed).map (fun r => r.take 32)).flatten)).zip
          ((scaleM.map (fun r => r.dropLast)).flatten)).map
          (fun p => p.1.map (fun (v : ℤ) => (v : ℚ) * p.2))).flatten))
      ((((unpackedWeight bits2 outF 33 packed).map (fun r => r.drop 32)).zip
          (scaleM.map (fun r => r.drop (r.length - 1)))).map
          (fun p => p.1.map (fun (v : ℤ) => (v : ℚ) * (p.2.getD 0 0)))) 32 1
      (by rw [reshapeW_eq_chunkBy]; exact hro1rows) hmul2rows
    constructor
    · rw [hrecunfold, hfl, reshapeW_eq_chunkBy, hro1len, hmul2len,
        List.length_map, List.length_map, hunp1, hscale, Nat.min_self, Nat.min_self]
    · rw [hrecunfold]
      exact hfr

/-- C9, witness at a concrete 1x33 weight, a 1-row store with 4 bits. -/
theorem c9_witness :
    (([List.replicate 33 (0 : ℚ)] : List (List ℚ)) ≠ [] ∧
     (∀ row ∈ [List.replicate 33 (0 : ℚ)], row.length = 33) ∧
     ([[(1 : ℚ), 1]] : List (List ℚ)).length = 1 ∧
     (∀ r ∈ ([[(1 : ℚ), 1]] : List (List ℚ)), r.length = 2)) ∧
    (((quant_weight_int [List.replicate 33 (0 : ℚ)] 4 32 Scheme.asym 1
          DType.int false).1.length = 1 ∧
      ∀ r ∈ (quant_weight_int [List.replicate 33 (0 : ℚ)] 4 32 Scheme.asym 1
          DType.int false).1, r.length = 33) ∧
     ((quant_weight_int [List.replicate 33 (0 : ℚ)] 4 32 Scheme.asym 1
          DType.int false).2.1.length = 1 ∧
      ∀ r ∈ (quant_weight_int [List.replicate 33 (0 : ℚ)] 4 32 Scheme.asym 1
          DType.int false).2.1, r.length = 2) ∧
     (∃ l, (quant_weight_int [List.replicate 33 (0 : ℚ)] 4 32 Scheme.asym 1
          DType.int false).2.2 = some l ∧ l.length = 1 ∧
        ∀ r ∈ l, r.length = 2) ∧
     ((wolRecover 4 1 33 32 [[0]] [[(1 : ℚ), 1]]).length = 1 ∧
      ∀ r ∈ wolRecover 4 1 33 32 [[0]] [[(1 : ℚ), 1]], r.length = 33)) :=
  ⟨⟨by simp, by simp, rfl, by simp⟩,
   c9_group_boundary [List.replicate 33 (0 : ℚ)] 4 Scheme.asym 1 false 1 4
     [[0]] [[(1 : ℚ), 1]] (by simp) (by simp) rfl (by simp)⟩

end RTN
